import Mathlib

/-!
Shallow embedding of the textme daemon core (src/daemon/src/claude-session.ts,
src/daemon/src/security.ts and the compiled daemon bundle src/unnamed/part_000)
together with proofs about the claims of the specification.

Strings are modelled as `List Char` (JavaScript strings are sequences of code
units; all the text the claims exercise is plain BMP text, where the two views
agree).  JavaScript regular-expression operations that the source uses
(`String.replace` with a global regex, `RegExp.test`, anchored line tests) are
embedded as executable scanners specialised to the concrete patterns of the
source; each scanner follows the deterministic backtracking-free behaviour of
the concrete pattern (the character classes of every star/plus in the source's
patterns are disjoint from what follows them, so the greedy parse is the
unique parse).
-/

/-! ## JavaScript character classes -/

/-- The JavaScript `\s` class (also the set trimmed by `String.prototype.trim`):
WhiteSpace plus LineTerminator code points. -/
def isWs (c : Char) : Bool :=
  c = ' ' || c = '\t' || c = '\n' || c = '\r' || c = '\x0b' || c = '\x0c' ||
  c = ' ' || c = ' ' ||
  (' ' ≤ c && c ≤ ' ') ||
  c = ' ' || c = ' ' || c = ' ' || c = ' ' ||
  c = '　' || c = '﻿'

/-- JavaScript `.` (dot) without the `s` flag: any character except a
LineTerminator. -/
def isDot (c : Char) : Bool :=
  !(c = '\n' || c = '\r' || c = ' ' || c = ' ')

/-- JavaScript `\d`. -/
def isDigit09 (c : Char) : Bool := '0' ≤ c && c ≤ '9'

/-! ## `String.prototype.trim` -/

/-- Remove the leading run of JS whitespace. -/
def jsTrimStart (s : List Char) : List Char := s.dropWhile isWs

/-- Remove the trailing run of JS whitespace. -/
def jsTrimEnd (s : List Char) : List Char := (s.reverse.dropWhile isWs).reverse

/-- `String.prototype.trim`. -/
def jsTrim (s : List Char) : List Char := jsTrimEnd (jsTrimStart s)

/-! ## `String.prototype.replace` with a global regex

`scanReplace m repl fuel s` scans `s` left to right; at each position it asks
the matcher `m` for a match starting there.  On a match of `n+1` characters it
emits `repl` and resumes after the match; on an (impossible for the patterns
below, but modelled for faithfulness) empty match it emits `repl`, keeps the
current character and advances one position, exactly as the JS engine does.
`fuel` only serves termination and is always instantiated with the length of
the scanned string, which every step respects. -/

def scanReplace (m : List Char → Option Nat) (repl : List Char) :
    Nat → List Char → List Char
  | _, [] => match m [] with
    | some _ => repl
    | none => []
  | 0, c :: cs => c :: cs
  | Nat.succ fuel, c :: cs =>
    match m (c :: cs) with
    | some 0 => repl ++ c :: scanReplace m repl fuel cs
    | some (Nat.succ n) => repl ++ scanReplace m repl fuel (cs.drop n)
    | none => c :: scanReplace m repl fuel cs

/-- `RegExp.prototype.test` (with `lastIndex = 0`): does the pattern match at
some position, including the end-of-string position? -/
def existsMatch (m : List Char → Option Nat) : List Char → Bool
  | [] => (m []).isSome
  | c :: cs => (m (c :: cs)).isSome || existsMatch m cs

/-! ## ANSI stripping (claude-session.ts `stripAnsi`)

`text.replace(ESC ([@-Z\\-_] | CSI), '')` globally, where the CSI alternative
is `\[`, then any number of characters 0x30..0x3F, then any number of
characters 0x20..0x2F, then one final character 0x40..0x7E. -/

/-- Membership in the character class `[@-Z\\-_]`. -/
def inEscFinal (c : Char) : Bool := ('@' ≤ c && c ≤ 'Z') || ('\\' ≤ c && c ≤ '_')

/-- One match of the ANSI-escape pattern starting at the head of the list,
returning the number of characters consumed. -/
def ansiMatch : List Char → Option Nat
  | '\x1b' :: '[' :: rest =>
    let a := rest.takeWhile (fun c => '0' ≤ c && c ≤ '?')
    let r2 := rest.drop a.length
    let b := r2.takeWhile (fun c => ' ' ≤ c && c ≤ '/')
    let r3 := r2.drop b.length
    match r3 with
    | c :: _ => if '@' ≤ c && c ≤ '~' then some (3 + a.length + b.length) else none
    | [] => none
  | '\x1b' :: c :: _ => if inEscFinal c then some 2 else none
  | _ => none

/-- claude-session.ts `stripAnsi`. -/
def stripAnsi (text : List Char) : List Char :=
  scanReplace ansiMatch [] text.length text

/-! ## Splitting into lines and joining (`split('\n')` / `join('\n')`) -/

def splitNl : List Char → List (List Char)
  | [] => [[]]
  | c :: cs =>
    if c = '\n' then [] :: splitNl cs
    else
      match splitNl cs with
      | l :: ls => (c :: l) :: ls
      | [] => [[c]]

def joinNl : List (List Char) → List Char
  | [] => []
  | [l] => l
  | l :: ls => l ++ '\n' :: joinNl ls

/-! ## The line-removal patterns of `extractFinalResponse`

Each entry of `linesToRemove` is embedded as a boolean test on the
already-trimmed line (the source tests `pattern.test(line.trim())`). -/

/-- `/^╭─+╮$/` -/
def pBoxTop (m : List Char) : Bool :=
  match m with
  | '╭' :: rest =>
    rest.getLast? = some '╮' && !rest.dropLast.isEmpty && rest.dropLast.all (· = '─')
  | _ => false

/-- `/^│.*│$/` -/
def pBoxSide (m : List Char) : Bool :=
  match m with
  | '│' :: rest =>
    !rest.isEmpty && rest.getLast? = some '│' && rest.dropLast.all isDot
  | _ => false

/-- `/^╰─+╯$/` -/
def pBoxBot (m : List Char) : Bool :=
  match m with
  | '╰' :: rest =>
    rest.getLast? = some '╯' && !rest.dropLast.isEmpty && rest.dropLast.all (· = '─')
  | _ => false

/-- `/^─+$/` -/
def pRule (m : List Char) : Bool := !m.isEmpty && m.all (· = '─')

/-- `/^\s*⟨spinner⟩.*$/` for one spinner frame character. -/
def pSpinner (frame : Char) (m : List Char) : Bool :=
  match m.dropWhile isWs with
  | c :: rest => c = frame && rest.all isDot
  | [] => false

/-- `/^⟨word⟩\s+/` (case-sensitive, unanchored at the end). -/
def pToolEcho (word : List Char) (m : List Char) : Bool :=
  match word, m with
  | [], c :: _ => isWs c
  | [], [] => false
  | w :: ws, c :: cs => c = w && pToolEcho ws cs
  | _ :: _, [] => false

/-- `/^\s*\d+\s*│/` (line numbers from file output). -/
def pLineNum (m : List Char) : Bool :=
  let r := m.dropWhile isWs
  let ds := r.takeWhile isDigit09
  !ds.isEmpty && ((r.drop ds.length).dropWhile isWs).head? = some '│'

/-- `/^>\s+/` (user prompt prefix). -/
def pPrompt (m : List Char) : Bool :=
  match m with
  | '>' :: c :: _ => isWs c
  | _ => false

/-- `/^User:/` -/
def pUser (m : List Char) : Bool := "User:".toList <+: m

/-- `/^Assistant:/` -/
def pAssistant (m : List Char) : Bool := "Assistant:".toList <+: m

/-- The `linesToRemove` table of `extractFinalResponse`. -/
def linesToRemove : List (List Char → Bool) :=
  [pBoxTop, pBoxSide, pBoxBot, pRule,
   pSpinner '⠋', pSpinner '⠙', pSpinner '⠹', pSpinner '⠸', pSpinner '⠼',
   pSpinner '⠴', pSpinner '⠦', pSpinner '⠧', pSpinner '⠇', pSpinner '⠏',
   pToolEcho "Read".toList, pToolEcho "Glob".toList, pToolEcho "Grep".toList,
   pToolEcho "Bash".toList, pToolEcho "Write".toList, pToolEcho "Edit".toList,
   pToolEcho "Task".toList, pToolEcho "TodoWrite".toList,
   pLineNum, pPrompt, pUser, pAssistant]

/-- Does `extractFinalResponse` keep this line?  The source sets `shouldKeep`
to false as soon as one pattern matches `line.trim()`. -/
def keepLine (line : List Char) : Bool :=
  !(linesToRemove.any (fun p => p (jsTrim line)))

/-! ## Collapsing blank runs: `result.replace(/\n{3,}/g, '\n\n')` -/

def nlRunMatch : List Char → Option Nat
  | '\n' :: '\n' :: '\n' :: rest => some (3 + (rest.takeWhile (· = '\n')).length)
  | _ => none

def collapseNl (s : List Char) : List Char :=
  scanReplace nlRunMatch ('\n' :: '\n' :: []) s.length s

/-- No occurrence of three consecutive newlines anywhere in the string (the
post-state of the `\n{3,}` replacement). -/
def noTriple (s : List Char) : Prop :=
  ∀ u v, s ≠ u ++ '\n' :: '\n' :: '\n' :: v

/-! ## claude-session.ts `extractFinalResponse` -/

def extractFinalResponse (rawOutput : List Char) : List Char :=
  let cleaned := stripAnsi rawOutput
  let filteredLines := (splitNl cleaned).filter keepLine
  let result := collapseNl (joinNl filteredLines)
  jsTrim result

/-! ## security.ts `sanitizeMessageContent`

Each dangerous pattern is embedded as a matcher returning the number of
characters a match starting at the head consumes.  The source tests each
freshly-created regex once (`pattern.test`) and, on success, replaces all its
occurrences (`String.replace` with `g` resets `lastIndex`), so the pair
`existsMatch` / `scanReplace` is the exact semantics. -/

/-- Case-insensitive literal: consume `lit` (up to simple case folding) and
return the rest. -/
def litCI : List Char → List Char → Option (List Char)
  | [], cs => some cs
  | _ :: _, [] => none
  | l :: lit, c :: cs => if c.toLower = l.toLower then litCI lit cs else none

/-- Consume exactly `n` decimal digits. -/
def digitsN : Nat → List Char → Option (List Char)
  | 0, cs => some cs
  | Nat.succ _, [] => none
  | Nat.succ n, c :: cs => if isDigit09 c then digitsN n cs else none

/-- `/is_from_me\s*:\s*(true|false)/gi` -/
def mIsFromMe (cs : List Char) : Option Nat :=
  match litCI "is_from_me".toList cs with
  | none => none
  | some r1 =>
    let w1 := (r1.takeWhile isWs).length
    match r1.dropWhile isWs with
    | c :: r3 =>
      if c = ':' then
        let w2 := (r3.takeWhile isWs).length
        let r4 := r3.dropWhile isWs
        match litCI "true".toList r4 with
        | some _ => some (10 + w1 + 1 + w2 + 4)
        | none =>
          match litCI "false".toList r4 with
          | some _ => some (10 + w1 + 1 + w2 + 5)
          | none => none
      else none
    | [] => none

/-- `/sender\s*:\s*\+?\d+/gi` -/
def mSender (cs : List Char) : Option Nat :=
  match litCI "sender".toList cs with
  | none => none
  | some r1 =>
    let w1 := (r1.takeWhile isWs).length
    match r1.dropWhile isWs with
    | c :: r3 =>
      if c = ':' then
        let w2 := (r3.takeWhile isWs).length
        let r4 := r3.dropWhile isWs
        if r4.head? = some '+' then
          let ds := (r4.tail.takeWhile isDigit09).length
          if ds = 0 then none else some (6 + w1 + 1 + w2 + 1 + ds)
        else
          let ds := (r4.takeWhile isDigit09).length
          if ds = 0 then none else some (6 + w1 + 1 + w2 + ds)
      else none
    | [] => none

/-- `/date\s*:\s*\d{4}-\d{2}-\d{2}T\d{2}:\d{2}:\d{2}/gi` -/
def mDate (cs : List Char) : Option Nat :=
  match litCI "date".toList cs with
  | none => none
  | some r1 =>
    let w1 := (r1.takeWhile isWs).length
    match r1.dropWhile isWs with
    | c :: r3 =>
      if c = ':' then
      let w2 := (r3.takeWhile isWs).length
      let r4 := r3.dropWhile isWs
      let step := fun (n : Nat) (sep : Option Char) (r : Option (List Char)) =>
        match r with
        | none => none
        | some rr =>
          match digitsN n rr with
          | none => none
          | some rr2 =>
            match sep with
            | none => some rr2
            | some c =>
              match rr2 with
              | c2 :: rr3 => if c2.toLower = c.toLower then some rr3 else none
              | [] => none
      let r5 := step 4 (some '-') (some r4)
      let r6 := step 2 (some '-') r5
      let r7 := step 2 (some 'T') r6
      let r8 := step 2 (some ':') r7
      let r9 := step 2 (some ':') r8
      match step 2 none r9 with
      | some _ => some (4 + w1 + 1 + w2 + 19)
      | none => none
      else none
    | [] => none

/-- The character class `[a-zA-Z0-9-]`. -/
def isHandleChar (c : Char) : Bool :=
  ('a' ≤ c && c ≤ 'z') || ('A' ≤ c && c ≤ 'Z') || isDigit09 c || c == '-'

/-- `/message_handle\s*:\s*[a-zA-Z0-9-]+/gi` -/
def mHandle (cs : List Char) : Option Nat :=
  match litCI "message_handle".toList cs with
  | none => none
  | some r1 =>
    let w1 := (r1.takeWhile isWs).length
    match r1.dropWhile isWs with
    | c :: r3 =>
      if c = ':' then
        let w2 := (r3.takeWhile isWs).length
        let r4 := r3.dropWhile isWs
        let ds := (r4.takeWhile isHandleChar).length
        if ds = 0 then none else some (14 + w1 + 1 + w2 + ds)
      else none
    | [] => none

/-- A case-insensitive literal pattern such as `/\[system\]/gi`. -/
def mLit (lit : List Char) (cs : List Char) : Option Nat :=
  match litCI lit cs with
  | none => none
  | some _ => some lit.length

/-- The `dangerousPatterns` table of `sanitizeMessageContent`, in source
order. -/
def dangerousPatterns : List (List Char → Option Nat) :=
  [mIsFromMe, mSender, mDate, mHandle,
   mLit "[system]".toList, mLit "[daemon]".toList, mLit "[admin]".toList]

def filteredMarker : List Char := "[FILTERED]".toList

/-- One pass of the `for (const pattern of dangerousPatterns)` loop body. -/
def sanitizeStep (acc : List Char × Bool) (m : List Char → Option Nat) :
    List Char × Bool :=
  if existsMatch m acc.1 then
    (scanReplace m filteredMarker acc.1.length acc.1, true)
  else acc

/-- security.ts `sanitizeMessageContent`: the sanitized text together with the
`filtered` flag. -/
def sanitizeMessageContent (content : List Char) : List Char × Bool :=
  dangerousPatterns.foldl sanitizeStep (content, false)

/-- The audit events `sanitizeMessageContent` emits: one `content_sanitized`
event exactly when something was filtered. -/
def sanitizeAuditEvents (content : List Char) : List String :=
  if (sanitizeMessageContent content).2 then ["content_sanitized"] else []

/-! ## security.ts `checkRateLimit`

`Date.now()` is passed explicitly; the module-level `rateLimits` map is
threaded as a function state.  The third component of the result is the list
of audit events the call emits. -/

structure RateEntry where
  count : Int
  resetTime : Nat
deriving DecidableEq

structure RateResult where
  allowed : Bool
  remaining : Int
deriving DecidableEq

def RLState : Type := String → Option RateEntry

def rlEmpty : RLState := fun _ => none

def rlUpdate (st : RLState) (phone : String) (e : RateEntry) : RLState :=
  fun k => if k = phone then some e else st k

def checkRateLimit (st : RLState) (phoneNumber : String) (now : Nat)
    (maxPerHour : Int) : RateResult × RLState × List String :=
  match st phoneNumber with
  | none =>
    (⟨true, maxPerHour - 1⟩, rlUpdate st phoneNumber ⟨1, now + 3600000⟩, [])
  | some limit =>
    if limit.resetTime < now then
      (⟨true, maxPerHour - 1⟩, rlUpdate st phoneNumber ⟨1, now + 3600000⟩, [])
    else if maxPerHour ≤ limit.count then
      (⟨false, 0⟩, st, ["rate_limit_exceeded"])
    else
      (⟨true, maxPerHour - (limit.count + 1)⟩,
       rlUpdate st phoneNumber ⟨limit.count + 1, limit.resetTime⟩, [])

/-- A sequence of `checkRateLimit` calls for one sender at the given times. -/
def runCalls (times : List Nat) (phone : String) (maxPerHour : Int)
    (st : RLState) : List RateResult × RLState :=
  match times with
  | [] => ([], st)
  | t :: ts =>
    let r := checkRateLimit st phone t maxPerHour
    let rest := runCalls ts phone maxPerHour r.2.1
    (r.1 :: rest.1, rest.2)

/-! ## claude-session.ts: the `send` close and timeout handlers

The per-call mutable state that the handlers touch (`currentProcess`,
`currentTaskId`, the db `RunningTask` record, `partialOutput`) is modelled
explicitly; `kill` records the pids that were sent SIGTERM. -/

structure SessionState where
  currentProcess : Option Nat
  currentTaskId : Option String
  runningTask : Option String
  partialOutput : List Char
deriving DecidableEq

/-- `ClaudeSession.cleanup`: clear the RunningTask record if a task id is
set. -/
def SessionState.cleanup (st : SessionState) : SessionState :=
  match st.currentTaskId with
  | some _ => { st with runningTask := none, currentTaskId := none }
  | none => st

/-- `ClaudeSession.kill`: SIGTERM the current process if any, then cleanup. -/
def SessionState.kill (st : SessionState) : SessionState × List Nat :=
  match st.currentProcess with
  | some pid => (SessionState.cleanup { st with currentProcess := none }, [pid])
  | none => (SessionState.cleanup st, [])

inductive SendOutcome
  | resolved (text : List Char)
  | rejected (message : List Char)
deriving DecidableEq

def SendOutcome.isResolved : SendOutcome → Bool
  | .resolved _ => true
  | .rejected _ => false

/-- The `${code}` interpolation (`code` is `number | null` in Node). -/
def showCode : Option Int → List Char
  | some c => (toString c).toList
  | none => "null".toList

/-- The `proc.on('close', ...)` handler of `ClaudeSession.send`. -/
def closeFire (st : SessionState) (rawOutput errorOutput : List Char)
    (code : Option Int) : SendOutcome × SessionState :=
  let st' := SessionState.cleanup { st with currentProcess := none }
  let cleanOutput := extractFinalResponse rawOutput
  if !(jsTrim cleanOutput).isEmpty then
    (.resolved (jsTrim cleanOutput), st')
  else if code ≠ some 0 then
    (.rejected ("Claude exited with code ".toList ++ showCode code ++
      ": ".toList ++ errorOutput), st')
  else
    (.resolved "No response from Claude.".toList, st')

/-- The 10-minute `setTimeout` handler of `ClaudeSession.send`. -/
def timeoutFire (st : SessionState) : SendOutcome × SessionState × List Nat :=
  let killed := st.kill
  let cleanedPart := extractFinalResponse st.partialOutput
  if !(jsTrim cleanedPart).isEmpty then
    (.resolved (jsTrim cleanedPart ++ "\n\n[Response timed out]".toList),
     killed.1, killed.2)
  else
    (.rejected "Response timeout".toList, killed.1, killed.2)

/-! ## claude-session.ts: the module-level session registry -/

structure SessionObj where
  sid : Nat
  workingDirectory : List Char
  isActive : Bool
  processing : Bool
  partialOut : List Char
deriving DecidableEq

/-- `ClaudeSession.exit`: mark inactive and kill the current process. -/
def SessionObj.exit (s : SessionObj) : SessionObj :=
  { s with isActive := false, processing := false }

structure RegistryState where
  currentSession : Option SessionObj
  currentDir : List Char
  nextSid : Nat
deriving DecidableEq

/-- `getOrCreateSession`.  `sid` is model furniture standing for JS object
identity (a fresh construction gets the next id); the third component reports
the old session that was terminated, if any. -/
def getOrCreateSession (workingDir : List Char) (st : RegistryState) :
    SessionObj × RegistryState × Option SessionObj :=
  match st.currentSession with
  | some s =>
    if s.isActive && st.currentDir = workingDir then (s, st, none)
    else
      (⟨st.nextSid, workingDir, true, false, []⟩,
       ⟨some ⟨st.nextSid, workingDir, true, false, []⟩, workingDir, st.nextSid + 1⟩,
       some s.exit)
  | none =>
    (⟨st.nextSid, workingDir, true, false, []⟩,
     ⟨some ⟨st.nextSid, workingDir, true, false, []⟩, workingDir, st.nextSid + 1⟩,
     none)

/-- `interruptCurrentTask`: capture the raw partial output, then kill. -/
def interruptCurrentTask (st : RegistryState) :
    Option (List Char) × RegistryState :=
  match st.currentSession with
  | some s =>
    if s.processing then
      (some s.partialOut,
       { st with currentSession := some { s with processing := false } })
    else (none, st)
  | none => (none, st)

/-! ## claude-session.ts `parseToolActivity` and the `processLine` rate gate -/

/-- Matcher for an anchored pattern `^LIT\s+(.+)$` with the `i` flag, applied
to a whole line; returns the capture.  The `\s` run is taken greedily; if
nothing remains after it, the engine backtracks one whitespace character into
the capture (which must then be a `.`-matchable character); a remainder that
contains a line terminator can never satisfy `(.+)$`. -/
def matchAnchoredCap (lit : List Char) (m : List Char) : Option (List Char) :=
  match litCI lit m with
  | none => none
  | some r1 =>
    let run := r1.takeWhile isWs
    let rest := r1.dropWhile isWs
    if run.isEmpty then none
    else if rest.isEmpty then
      match run.reverse with
      | c :: _ :: _ => if isDot c then some [c] else none
      | _ => none
    else if rest.all isDot then some rest
    else none

def isColonWs (c : Char) : Bool := c == ':' || isWs c

/-- Matcher for `LIT[:\s]+(.+)$` (with the `i` flag) at the head of the
list. -/
def matchColonCapAt (lit : List Char) (m : List Char) : Option (List Char) :=
  match litCI lit m with
  | none => none
  | some r1 =>
    let run := r1.takeWhile isColonWs
    let rest := r1.dropWhile isColonWs
    if run.isEmpty then none
    else if rest.isEmpty then
      match run.reverse with
      | c :: _ :: _ => if isDot c then some [c] else none
      | _ => none
    else if rest.all isDot then some rest
    else none

/-- Unanchored search: try the position matcher at every start position, the
earliest match wins. -/
def searchCap (f : List Char → Option (List Char)) : List Char → Option (List Char)
  | [] => f []
  | c :: cs =>
    match f (c :: cs) with
    | some cap => some cap
    | none => searchCap f cs

/-- The ordered pattern table of `parseToolActivity`; each entry pairs the
matcher with the prefix of the formatted activity string. -/
def toolPatterns : List ((List Char → Option (List Char)) × List Char) :=
  [(matchAnchoredCap "Read".toList, "Reading: ".toList),
   (matchAnchoredCap "Glob".toList, "Searching: ".toList),
   (matchAnchoredCap "Grep".toList, "Grep: ".toList),
   (matchAnchoredCap "Bash".toList, "Running: ".toList),
   (matchAnchoredCap "Write".toList, "Writing: ".toList),
   (matchAnchoredCap "Edit".toList, "Editing: ".toList),
   (matchAnchoredCap "Task".toList, "Task: ".toList),
   (searchCap (matchColonCapAt "Reading file".toList), "Reading: ".toList),
   (searchCap (matchColonCapAt "Running".toList), "Running: ".toList),
   (searchCap (matchColonCapAt "Writing to".toList), "Writing: ".toList),
   (searchCap (matchColonCapAt "Searching".toList), "Searching: ".toList)]

/-- claude-session.ts `parseToolActivity`: strip ANSI, trim, first matching
pattern wins. -/
def parseToolActivity (line : List Char) : Option (List Char) :=
  let stripped := jsTrim (stripAnsi line)
  toolPatterns.findSome? (fun p => (p.1 stripped).map (fun cap => p.2 ++ cap))

/-- The `processLine` rate gate of `send`, folded over a list of
`(line, Date.now())` events with the `lastActivityTime` state (initially 0),
with an `onToolActivity` callback installed.  Returns the forwarded
`(activity, time)` notices.  `lastActivityTime + interval ≤ now` is
`now - lastActivityTime >= activityIntervalMs` for the JS numbers involved. -/
def runLines (interval : Nat) : List (List Char × Nat) → Nat → List (List Char × Nat)
  | [], _ => []
  | (line, now) :: rest, lastActivityTime =>
    match parseToolActivity line with
    | some activity =>
      if lastActivityTime + interval ≤ now then
        (activity, now) :: runLines interval rest now
      else runLines interval rest lastActivityTime
    | none => runLines interval rest lastActivityTime

/-- The final `lastActivityTime` after processing the events. -/
def lastAfterLines (interval : Nat) : List (List Char × Nat) → Nat → Nat
  | [], lastActivityTime => lastActivityTime
  | (line, now) :: rest, lastActivityTime =>
    match parseToolActivity line with
    | some _ =>
      if lastActivityTime + interval ≤ now then lastAfterLines interval rest now
      else lastAfterLines interval rest lastActivityTime
    | none => lastAfterLines interval rest lastActivityTime

/-! ## part_000 `deduplicateResponse` -/

/-- The first scan: split points `halfLength - 50 .. halfLength + 50`, first
split whose two trimmed halves coincide (and are longer than 50) wins. -/
def dedupPhase1 (trimmed : List Char) : Option (List Char) :=
  let halfLength : Int := (trimmed.length : Int) / 2
  ((List.range 101).map (fun i => halfLength - 50 + (i : Int))).findSome?
    (fun splitPoint =>
      if splitPoint ≤ 0 ∨ (trimmed.length : Int) ≤ splitPoint then none
      else
        let firstHalf := jsTrim (trimmed.take splitPoint.toNat)
        let secondHalf := jsTrim (trimmed.drop splitPoint.toNat)
        if firstHalf = secondHalf ∧ 50 < firstHalf.length then some firstHalf
        else none)

/-- The second scan: trailing-duplicate lengths `len = ⌊n/2⌋, ⌊n/2⌋-10, ...`
down to 100. -/
def dedupPhase2 (trimmed : List Char) : Option (List Char) :=
  let half := trimmed.length / 2
  let count := if 100 ≤ half then (half - 100) / 10 + 1 else 0
  ((List.range count).map (fun k => half - 10 * k)).findSome?
    (fun len =>
      let start := jsTrim (trimmed.take len)
      if start.isSuffixOf trimmed then
        some (jsTrim (trimmed.take (trimmed.length - len)))
      else none)

/-- part_000 `deduplicateResponse`.  (`!response` is subsumed by the length
guard: the empty string has length `0 < 100`.) -/
def deduplicateResponse (response : List Char) : List Char :=
  if response.length < 100 then response
  else
    let trimmed := jsTrim response
    match dedupPhase1 trimmed with
    | some r => r
    | none =>
      match dedupPhase2 trimmed with
      | some r => r
      | none => response

/-! ## part_000 `isCdCommand` and the poll loop's cd fragment -/

/-- Split a path on `'/'`. -/
def splitSlash : List Char → List (List Char)
  | [] => [[]]
  | c :: cs =>
    if c = '/' then [] :: splitSlash cs
    else
      match splitSlash cs with
      | l :: ls => (c :: l) :: ls
      | [] => [[c]]

/-- POSIX path normalisation for an absolute path: drop empty and `.`
segments, let `..` pop (and vanish at the root). -/
def normSegs : List (List Char) → List (List Char) → List (List Char)
  | [], acc => acc.reverse
  | seg :: rest, acc =>
    if seg = [] ∨ seg = ['.'] then normSegs rest acc
    else if seg = ['.', '.'] then normSegs rest (acc.drop 1)
    else normSegs rest (seg :: acc)

def joinSlash : List (List Char) → List Char
  | [] => []
  | [s] => s
  | s :: ss => s ++ '/' :: joinSlash ss

/-- Node `path.resolve` against an absolute current working directory. -/
def pathResolve (cwd p : List Char) : List Char :=
  let full := if p.head? = some '/' then p else cwd ++ '/' :: p
  '/' :: joinSlash (normSegs (splitSlash full) [])

structure CdResult where
  isCD : Bool
  path : Option (List Char)
  error : Option (List Char)
deriving DecidableEq

def accessDeniedText : List Char :=
  "Access denied: path outside allowed directories".toList

/-- part_000 `isCdCommand`; `home` is `os.homedir()` and `cwd` the process
working directory `path.resolve` resolves relative paths against. -/
def isCdCommand (content home cwd : List Char) : CdResult :=
  match matchAnchoredCap "cd".toList (jsTrim content) with
  | none => ⟨false, none, none⟩
  | some cap =>
    let t0 := jsTrim cap
    let targetPath := if t0.head? = some '~' then home ++ t0.drop 1 else t0
    let resolvedPath := pathResolve cwd targetPath
    if !(home.isPrefixOf resolvedPath) && !("/tmp".toList.isPrefixOf resolvedPath) then
      ⟨true, none, some accessDeniedText⟩
    else ⟨true, some resolvedPath, none⟩

structure DaemonState where
  workingDir : List Char
deriving DecidableEq

/-- The `if (cdResult.isCD)` fragment of the poll loop: the replies sent to
the user and the (possibly updated) persisted working directory. -/
def pollCdStep (cd : CdResult) (dirExists : List Char → Bool)
    (st : DaemonState) : DaemonState × List (List Char) :=
  if cd.isCD then
    match cd.error with
    | some e => (st, ["❌ ".toList ++ e])
    | none =>
      match cd.path with
      | some p =>
        if dirExists p then (⟨p⟩, ["📂 Now in: ".toList ++ p])
        else (st, ["❌ Directory not found: ".toList ++ p])
      | none => (st, [])
  else (st, [])

/-! ## Whitespace and trim toolkit -/

/-- Every character of the list is JS whitespace. -/
def allWs (l : List Char) : Prop := ∀ c ∈ l, isWs c = true

theorem dropWhile_idem (p : Char → Bool) (l : List Char) :
    (l.dropWhile p).dropWhile p = l.dropWhile p := by
  induction l with
  | nil => rfl
  | cons c cs ih =>
    by_cases h : p c
    · simpa [List.dropWhile_cons, h] using ih
    · simp [List.dropWhile_cons, h]

theorem head_dropWhile_false (p : Char → Bool) (l : List Char) :
    ∀ c, (l.dropWhile p).head? = some c → p c = false := by
  induction l with
  | nil => intro c h; simp [List.dropWhile] at h
  | cons a cs ih =>
    intro c h
    by_cases ha : p a = true
    · exact ih c (by simpa [List.dropWhile_cons, ha] using h)
    · have ha' : p a = false := by simpa using ha
      simp [List.dropWhile_cons, ha'] at h
      exact h ▸ ha'

theorem dropWhile_eq_self (p : Char → Bool) (l : List Char)
    (h : ∀ c, l.head? = some c → p c = false) : l.dropWhile p = l := by
  cases l with
  | nil => rfl
  | cons c cs => simp [List.dropWhile_cons, h c rfl]

theorem mem_of_mem_takeWhile (p : Char → Bool) (l : List Char) {c : Char}
    (h : c ∈ l.takeWhile p) : p c = true := by
  induction l with
  | nil => simp [List.takeWhile] at h
  | cons a cs ih =>
    by_cases ha : p a
    · rcases (by simpa [List.takeWhile_cons, ha] using h : c = a ∨ c ∈ cs.takeWhile p) with
        h1 | h1
      · simpa [h1] using ha
      · exact ih h1
    · simp [List.takeWhile_cons, ha] at h

theorem dropWhile_ws_append (w x : List Char) (hw : allWs w) :
    (w ++ x).dropWhile isWs = x.dropWhile isWs := by
  induction w with
  | nil => rfl
  | cons c cs ih =>
    have hc : isWs c = true := hw c (by simp)
    simpa [List.dropWhile_cons, hc] using ih (fun d hd => hw d (by simp [hd]))

theorem jsTrimStart_ws_append (w x : List Char) (hw : allWs w) :
    jsTrimStart (w ++ x) = jsTrimStart x := dropWhile_ws_append w x hw

theorem jsTrimStart_split (s : List Char) :
    s.takeWhile isWs ++ jsTrimStart s = s := List.takeWhile_append_dropWhile isWs s

theorem jsTrimStart_head (s : List Char) :
    ∀ c, (jsTrimStart s).head? = some c → isWs c = false :=
  head_dropWhile_false isWs s

theorem jsTrimStart_eq_self (s : List Char)
    (h : ∀ c, s.head? = some c → isWs c = false) : jsTrimStart s = s :=
  dropWhile_eq_self isWs s h

theorem getLast?_eq_head?_reverse (l : List Char) : l.getLast? = l.reverse.head? :=
  (List.head?_reverse l).symm

theorem jsTrimEnd_getLast (s : List Char) :
    ∀ c, (jsTrimEnd s).getLast? = some c → isWs c = false := by
  intro c h
  rw [jsTrimEnd, getLast?_eq_head?_reverse, List.reverse_reverse] at h
  exact head_dropWhile_false isWs s.reverse c h

theorem jsTrimEnd_split (s : List Char) :
    jsTrimEnd s ++ (s.reverse.takeWhile isWs).reverse = s := by
  have h := congrArg List.reverse (jsTrimStart_split s.reverse)
  simpa [jsTrimEnd, List.reverse_append] using h

theorem jsTrimEnd_eq_self (s : List Char)
    (h : ∀ c, s.getLast? = some c → isWs c = false) : jsTrimEnd s = s := by
  have : s.reverse.dropWhile isWs = s.reverse := by
    refine dropWhile_eq_self isWs s.reverse (fun c hc => h c ?_)
    rw [getLast?_eq_head?_reverse]; exact hc
  simp [jsTrimEnd, this]

theorem jsTrimEnd_ws_append (t w : List Char) (hw : allWs w) :
    jsTrimEnd (t ++ w) = jsTrimEnd t := by
  have hw' : allWs w.reverse := fun c hc => hw c (by simpa using hc)
  simp [jsTrimEnd, List.reverse_append, dropWhile_ws_append _ _ hw']

theorem jsTrim_head (s : List Char) :
    ∀ c, (jsTrim s).head? = some c → isWs c = false := by
  intro c h
  rcases hv : jsTrim s with _ | ⟨a, t⟩
  · rw [hv] at h; simp at h
  · rw [hv] at h
    have hac : a = c := by injection h
    subst hac
    have hsplit := jsTrimEnd_split (jsTrimStart s)
    have hhead : (jsTrimStart s).head? = some a := by
      rw [← hsplit, show jsTrimEnd (jsTrimStart s) = jsTrim s from rfl, hv]
      rfl
    exact jsTrimStart_head s a hhead

theorem jsTrim_getLast (s : List Char) :
    ∀ c, (jsTrim s).getLast? = some c → isWs c = false :=
  jsTrimEnd_getLast (jsTrimStart s)

theorem jsTrim_idem (s : List Char) : jsTrim (jsTrim s) = jsTrim s := by
  have h1 : jsTrimStart (jsTrim s) = jsTrim s :=
    jsTrimStart_eq_self _ (jsTrim_head s)
  have h2 : jsTrimEnd (jsTrim s) = jsTrim s :=
    jsTrimEnd_eq_self _ (jsTrim_getLast s)
  rw [jsTrim, h1, h2]

theorem jsTrim_sandwich (a t b : List Char) (ha : allWs a) (hb : allWs b)
    (hne : t ≠ [])
    (hth : ∀ c, t.head? = some c → isWs c = false)
    (htl : ∀ c, t.getLast? = some c → isWs c = false) :
    jsTrim (a ++ t ++ b) = t := by
  have h1 : jsTrimStart (a ++ t ++ b) = t ++ b := by
    rw [List.append_assoc, jsTrimStart_ws_append _ _ ha]
    cases t with
    | nil => exact absurd rfl hne
    | cons c cs =>
      exact jsTrimStart_eq_self _ (by intro d hd; simp at hd; exact hd ▸ hth c rfl)
  rw [jsTrim, h1, jsTrimEnd_ws_append _ _ hb]
  exact jsTrimEnd_eq_self t htl

theorem jsTrim_decompose (s : List Char) :
    ∃ a b, allWs a ∧ allWs b ∧ s = a ++ jsTrim s ++ b := by
  refine ⟨s.takeWhile isWs, ((jsTrimStart s).reverse.takeWhile isWs).reverse,
    fun c hc => mem_of_mem_takeWhile isWs s hc,
    fun c hc => mem_of_mem_takeWhile isWs (jsTrimStart s).reverse (by simpa using hc),
    ?_⟩
  conv_lhs => rw [← jsTrimStart_split s, ← jsTrimEnd_split (jsTrimStart s)]
  rw [jsTrim, List.append_assoc]

theorem jsTrim_ws (w : List Char) (hw : allWs w) : jsTrim w = [] := by
  have h1 : jsTrimStart w = [] := by
    have := jsTrimStart_ws_append w [] hw
    simpa [jsTrimStart] using this
  rw [jsTrim, h1]; rfl

/-! ## C1, C2: the close and timeout handlers of `send` -/

theorem extract_trimmed (r : List Char) :
    jsTrim (extractFinalResponse r) = extractFinalResponse r := jsTrim_idem _

theorem cleanup_runningTask (st : SessionState)
    (hcoh : st.currentTaskId = none → st.runningTask = none) :
    (SessionState.cleanup st).runningTask = none := by
  cases h : st.currentTaskId with
  | none => simpa [SessionState.cleanup, h] using hcoh h
  | some t => simp [SessionState.cleanup, h]

theorem cleanup_currentProcess (st : SessionState) :
    (SessionState.cleanup st).currentProcess = st.currentProcess := by
  cases h : st.currentTaskId <;> simp [SessionState.cleanup, h]

theorem kill_runningTask (st : SessionState)
    (hcoh : st.currentTaskId = none → st.runningTask = none) :
    (st.kill).1.runningTask = none := by
  cases h : st.currentProcess with
  | some pid =>
    simp only [SessionState.kill, h]
    exact cleanup_runningTask _ hcoh
  | none =>
    simp only [SessionState.kill, h]
    exact cleanup_runningTask _ hcoh

theorem kill_currentProcess (st : SessionState) : (st.kill).1.currentProcess = none := by
  cases h : st.currentProcess with
  | some pid => simp [SessionState.kill, h, cleanup_currentProcess]
  | none => simp [SessionState.kill, h, cleanup_currentProcess, h]

theorem kill_signals (st : SessionState) (pid : Nat)
    (h : st.currentProcess = some pid) : (st.kill).2 = [pid] := by
  simp [SessionState.kill, h]

/-- C1: when the subprocess closes, `send` resolves with the cleaned output if
it is non-empty; otherwise it rejects with the exit code and captured stderr
when the exit code is non-zero, and resolves with the fixed sentinel when the
exit code is zero. -/
theorem close_handler_outcome (st : SessionState) (rawOutput errorOutput : List Char)
    (code : Option Int) :
    (extractFinalResponse rawOutput ≠ [] →
      (closeFire st rawOutput errorOutput code).1 =
        SendOutcome.resolved (extractFinalResponse rawOutput)) ∧
    (extractFinalResponse rawOutput = [] → code ≠ some 0 →
      (closeFire st rawOutput errorOutput code).1 =
        SendOutcome.rejected ("Claude exited with code ".toList ++ showCode code ++
          ": ".toList ++ errorOutput)) ∧
    (extractFinalResponse rawOutput = [] → code = some 0 →
      (closeFire st rawOutput errorOutput code).1 =
        SendOutcome.resolved "No response from Claude.".toList) := by
  have ht := extract_trimmed rawOutput
  refine ⟨fun h => ?_, fun h hc => ?_, fun h hc => ?_⟩
  · have hE : (extractFinalResponse rawOutput).isEmpty = false := by
      cases hv : extractFinalResponse rawOutput
      · exact absurd hv h
      · rfl
    simp [closeFire, ht, hE]
  · have hE : (extractFinalResponse rawOutput).isEmpty = true := by rw [h]; rfl
    simp [closeFire, ht, hE, hc]
  · have hE : (extractFinalResponse rawOutput).isEmpty = true := by rw [h]; rfl
    simp [closeFire, ht, hE, hc]

theorem close_handler_outcome_witness :
    (closeFire ⟨none, none, none, []⟩ "hello".toList [] (some 0)).1 =
      SendOutcome.resolved "hello".toList ∧
    (closeFire ⟨none, none, none, []⟩ [] "boom".toList (some 1)).1 =
      SendOutcome.rejected "Claude exited with code 1: boom".toList ∧
    (closeFire ⟨none, none, none, []⟩ [] [] (some 0)).1 =
      SendOutcome.resolved "No response from Claude.".toList := by
  refine ⟨?_, ?_, ?_⟩
  · have h := (close_handler_outcome ⟨none, none, none, []⟩ "hello".toList [] (some 0)).1
      (by decide)
    rw [h]; decide
  · have h := (close_handler_outcome ⟨none, none, none, []⟩ [] "boom".toList (some 1)).2.1
      (by decide) (by decide)
    rw [h]; decide
  · exact (close_handler_outcome ⟨none, none, none, []⟩ [] [] (some 0)).2.2
      (by decide) rfl

/-- C2: when the 10-minute timeout fires with non-empty cleaned partial
output, the subprocess is killed, `send` resolves with the partial output plus
the timeout marker, the RunningTask record is cleared, and no exception
propagates (the promise resolves). -/
theorem timeout_handler_partial (st : SessionState)
    (hcoh : st.currentTaskId = none → st.runningTask = none)
    (hne : extractFinalResponse st.partialOutput ≠ []) :
    (timeoutFire st).1 =
      SendOutcome.resolved (extractFinalResponse st.partialOutput ++
        "\n\n[Response timed out]".toList) ∧
    (timeoutFire st).2.1.runningTask = none ∧
    (timeoutFire st).2.1.currentProcess = none ∧
    ((timeoutFire st).1).isResolved = true ∧
    (∀ pid, st.currentProcess = some pid → (timeoutFire st).2.2 = [pid]) := by
  have ht := extract_trimmed st.partialOutput
  have hE : (extractFinalResponse st.partialOutput).isEmpty = false := by
    cases hv : extractFinalResponse st.partialOutput
    · exact absurd hv hne
    · rfl
  refine ⟨?_, ?_, ?_, ?_, ?_⟩
  · simp [timeoutFire, ht, hE]
  · simpa [timeoutFire, ht, hE] using kill_runningTask st hcoh
  · simpa [timeoutFire, ht, hE] using kill_currentProcess st
  · simp [timeoutFire, ht, hE, SendOutcome.isResolved]
  · intro pid hpid
    simpa [timeoutFire, ht, hE] using kill_signals st pid hpid

theorem timeout_handler_partial_witness :
    (timeoutFire ⟨some 42, some "t1", some "task", "foo".toList⟩).1 =
      SendOutcome.resolved "foo\n\n[Response timed out]".toList ∧
    (timeoutFire ⟨some 42, some "t1", some "task", "foo".toList⟩).2.1.runningTask = none ∧
    (timeoutFire ⟨some 42, some "t1", some "task", "foo".toList⟩).2.2 = [42] := by
  have H := timeout_handler_partial ⟨some 42, some "t1", some "task", "foo".toList⟩
    (by intro h; exact Option.noConfusion h) (by decide)
  refine ⟨?_, H.2.1, H.2.2.2.2 42 rfl⟩
  rw [H.1]; decide

/-! ## C3: the rate limiter -/

theorem runCalls_append (xs ys : List Nat) (p : String) (m : Int) (st : RLState) :
    runCalls (xs ++ ys) p m st =
      ((runCalls xs p m st).1 ++ (runCalls ys p m (runCalls xs p m st).2).1,
       (runCalls ys p m (runCalls xs p m st).2).2) := by
  induction xs generalizing st with
  | nil => simp [runCalls]
  | cons t ts ih => simp [runCalls, ih]

theorem runCalls_in_window (phone : String) (maxPerHour : Int) (R : Nat)
    (ts : List Nat) :
    ∀ (c : Int) (st : RLState), st phone = some ⟨c, R⟩ → 1 ≤ c →
    (∀ t ∈ ts, t ≤ R) → c + (ts.length : Int) ≤ maxPerHour →
    (∀ r ∈ (runCalls ts phone maxPerHour st).1, r.allowed = true) ∧
    (runCalls ts phone maxPerHour st).2 phone = some ⟨c + (ts.length : Int), R⟩ := by
  induction ts with
  | nil =>
    intro c st hst _ _ _
    exact ⟨by simp [runCalls], by simpa [runCalls] using hst⟩
  | cons t ts ih =>
    intro c st hst hc hw hcount
    have hnotreset : ¬ (R < t) := by
      have := hw t (by simp)
      omega
    rw [List.length_cons] at hcount
    push_cast at hcount
    have hnotmax : ¬ (maxPerHour ≤ c) := by
      have hlen : (0 : Int) ≤ (ts.length : Int) := by positivity
      omega
    have hstep : checkRateLimit st phone t maxPerHour =
        (⟨true, maxPerHour - (c + 1)⟩, rlUpdate st phone ⟨c + 1, R⟩, []) := by
      simp [checkRateLimit, hst, hnotreset, hnotmax]
    have hupd : (rlUpdate st phone ⟨c + 1, R⟩) phone = some ⟨c + 1, R⟩ := by
      simp [rlUpdate]
    obtain ⟨ha, hfin⟩ := ih (c + 1) _ hupd (by omega)
      (fun u hu => hw u (by simp [hu])) (by omega)
    constructor
    · intro r hr
      simp only [runCalls, hstep, List.mem_cons] at hr
      rcases hr with h | h
      · rw [h]
      · exact ha r h
    · simp only [runCalls, hstep]
      rw [hfin]
      congr 2
      rw [List.length_cons]
      push_cast
      ring

/-- C3: with `maxPerHour = 30`, 31 calls for one sender all within the fixed
1-hour window opened by the first call are allowed for calls 1..30, denied
with `remaining = 0` for call 31, and the first call strictly past the
window's reset time is allowed again with a fresh count of 1
(`remaining = 29`). -/
theorem rate_limit_window (phone : String) (t1 : Nat) (ts : List Nat) (t31 : Nat)
    (hlen : ts.length = 29)
    (hws : ∀ t ∈ ts, t ≤ t1 + 3600000) (h31 : t31 ≤ t1 + 3600000) :
    (∀ r ∈ (runCalls (t1 :: (ts ++ [t31])) phone 30 rlEmpty).1.dropLast,
      r.allowed = true) ∧
    (runCalls (t1 :: (ts ++ [t31])) phone 30 rlEmpty).1.getLast? =
      some ⟨false, 0⟩ ∧
    (∀ t', t1 + 3600000 < t' →
      (checkRateLimit (runCalls (t1 :: (ts ++ [t31])) phone 30 rlEmpty).2
          phone t' 30).1 = ⟨true, 29⟩ ∧
      (checkRateLimit (runCalls (t1 :: (ts ++ [t31])) phone 30 rlEmpty).2
          phone t' 30).2.1 phone = some ⟨1, t' + 3600000⟩) := by
  have hfirst : checkRateLimit rlEmpty phone t1 30 =
      (⟨true, 29⟩, rlUpdate rlEmpty phone ⟨1, t1 + 3600000⟩, []) := by
    simp [checkRateLimit, rlEmpty]
  have hst1 : (rlUpdate rlEmpty phone ⟨1, t1 + 3600000⟩) phone =
      some ⟨1, t1 + 3600000⟩ := by simp [rlUpdate]
  obtain ⟨hmidallowed, hmidstate⟩ := runCalls_in_window phone 30 (t1 + 3600000) ts 1
    (rlUpdate rlEmpty phone ⟨1, t1 + 3600000⟩) hst1 le_rfl hws
    (by rw [hlen]; decide)
  have hmidstate' : (runCalls ts phone 30
      (rlUpdate rlEmpty phone ⟨1, t1 + 3600000⟩)).2 phone =
      some ⟨30, t1 + 3600000⟩ := by
    rw [hmidstate]
    congr 2
    rw [hlen]
    decide
  have hdeny : checkRateLimit (runCalls ts phone 30
      (rlUpdate rlEmpty phone ⟨1, t1 + 3600000⟩)).2 phone t31 30 =
      (⟨false, 0⟩, (runCalls ts phone 30
        (rlUpdate rlEmpty phone ⟨1, t1 + 3600000⟩)).2, ["rate_limit_exceeded"]) := by
    have hno : ¬ (t1 + 3600000 < t31) := by omega
    simp [checkRateLimit, hmidstate', hno]
  have hshape : runCalls (t1 :: (ts ++ [t31])) phone 30 rlEmpty =
      (RateResult.mk true 29 ::
        ((runCalls ts phone 30 (rlUpdate rlEmpty phone ⟨1, t1 + 3600000⟩)).1 ++
          [⟨false, 0⟩]),
       (runCalls ts phone 30 (rlUpdate rlEmpty phone ⟨1, t1 + 3600000⟩)).2) := by
    show (let r := checkRateLimit rlEmpty phone t1 30
      let rest := runCalls (ts ++ [t31]) phone 30 r.2.1
      (r.1 :: rest.1, rest.2)) = _
    rw [hfirst]
    simp only [runCalls_append]
    simp [runCalls, hdeny]
  refine ⟨?_, ?_, ?_⟩
  · intro r hr
    rw [hshape] at hr
    have : (RateResult.mk true 29 ::
        ((runCalls ts phone 30 (rlUpdate rlEmpty phone ⟨1, t1 + 3600000⟩)).1 ++
          [⟨false, 0⟩])).dropLast =
        RateResult.mk true 29 ::
          (runCalls ts phone 30 (rlUpdate rlEmpty phone ⟨1, t1 + 3600000⟩)).1 := by
      rw [← List.cons_append, List.dropLast_concat]
    rw [this] at hr
    rcases List.mem_cons.mp hr with h | h
    · rw [h]
    · exact hmidallowed r h
  · rw [hshape]
    rw [show (RateResult.mk true 29 ::
        ((runCalls ts phone 30 (rlUpdate rlEmpty phone ⟨1, t1 + 3600000⟩)).1 ++
          [⟨false, 0⟩])) = (RateResult.mk true 29 ::
        (runCalls ts phone 30 (rlUpdate rlEmpty phone ⟨1, t1 + 3600000⟩)).1) ++
          [⟨false, 0⟩] from by rw [List.cons_append]]
    exact List.getLast?_concat _
  · intro t' ht'
    rw [hshape]
    constructor
    · simp [checkRateLimit, hmidstate', ht']
    · simp [checkRateLimit, hmidstate', ht', rlUpdate]

theorem rate_limit_window_witness :
    (∀ r ∈ (runCalls (0 :: (List.replicate 29 0 ++ [0])) "p" 30 rlEmpty).1.dropLast,
      r.allowed = true) ∧
    (runCalls (0 :: (List.replicate 29 0 ++ [0])) "p" 30 rlEmpty).1.getLast? =
      some ⟨false, 0⟩ ∧
    (checkRateLimit (runCalls (0 :: (List.replicate 29 0 ++ [0])) "p" 30 rlEmpty).2
        "p" 3600001 30).1 = ⟨true, 29⟩ := by
  have H := rate_limit_window "p" 0 (List.replicate 29 0) 0
    (by decide) (by decide) (by decide)
  exact ⟨H.1, H.2.1, (H.2.2 3600001 (by decide)).1⟩

/-! ## C7: `interruptCurrentTask` -/

/-- C7 (amended): when a task is being processed, `interruptCurrentTask`
returns the raw accumulated partial output — including the empty string when
nothing was captured — and then kills the process; when no task is being
processed it returns null and changes nothing. -/
theorem interrupt_raw_or_null (st : RegistryState) :
    (∀ s, st.currentSession = some s → s.processing = true →
      (interruptCurrentTask st).1 = some s.partialOut ∧
      (interruptCurrentTask st).2.currentSession =
        some { s with processing := false }) ∧
    (∀ s, st.currentSession = some s → s.processing = false →
      (interruptCurrentTask st).1 = none ∧ (interruptCurrentTask st).2 = st) ∧
    (st.currentSession = none →
      (interruptCurrentTask st).1 = none ∧ (interruptCurrentTask st).2 = st) := by
  refine ⟨fun s hs hp => ?_, fun s hs hp => ?_, fun hn => ?_⟩ <;>
    simp [interruptCurrentTask, *]

/-- C7 counterexample to the claim as stated: with a task processing and
nothing captured, `interruptCurrentTask` returns the empty string, not null;
and what it returns is the raw buffer, not the cleaned
(`extractFinalResponse`) output. -/
theorem interrupt_claim_cex :
    (interruptCurrentTask ⟨some ⟨0, "/w".toList, true, true, []⟩, "/w".toList, 1⟩).1 =
      some [] ∧
    some ([] : List Char) ≠ (none : Option (List Char)) ∧
    (interruptCurrentTask
      ⟨some ⟨0, "/w".toList, true, true, "\x1b[0mhi".toList⟩, "/w".toList, 1⟩).1 =
      some "\x1b[0mhi".toList ∧
    extractFinalResponse "\x1b[0mhi".toList ≠ "\x1b[0mhi".toList := by decide

theorem interrupt_raw_or_null_witness :
    (interruptCurrentTask
      ⟨some ⟨0, "/w".toList, true, true, "abc".toList⟩, "/w".toList, 1⟩).1 =
      some "abc".toList := by
  exact ((interrupt_raw_or_null
    ⟨some ⟨0, "/w".toList, true, true, "abc".toList⟩, "/w".toList, 1⟩).1
    ⟨0, "/w".toList, true, true, "abc".toList⟩ rfl rfl).1

/-! ## C8: the session registry -/

/-- C8: `getOrCreateSession` returns the existing session exactly when it is
active and bound to the same working directory; otherwise it terminates any
existing session (leaving it inactive) and constructs a fresh active session
bound to the new directory — so at most one active session exists. -/
theorem getOrCreate_spec (wd : List Char) (st : RegistryState)
    (hwf : ∀ s, st.currentSession = some s → s.sid < st.nextSid) :
    ((∃ s, st.currentSession = some s ∧ s.isActive = true ∧ st.currentDir = wd) →
      st.currentSession = some (getOrCreateSession wd st).1 ∧
      (getOrCreateSession wd st).2.1 = st ∧
      (getOrCreateSession wd st).2.2 = none) ∧
    ((¬ ∃ s, st.currentSession = some s ∧ s.isActive = true ∧ st.currentDir = wd) →
      (getOrCreateSession wd st).1 = ⟨st.nextSid, wd, true, false, []⟩ ∧
      (getOrCreateSession wd st).1.isActive = true ∧
      (getOrCreateSession wd st).1.workingDirectory = wd ∧
      (getOrCreateSession wd st).2.1.currentSession =
        some (getOrCreateSession wd st).1 ∧
      (getOrCreateSession wd st).2.1.currentDir = wd ∧
      (∀ s, st.currentSession = some s →
        (getOrCreateSession wd st).2.2 = some s.exit ∧
        s.exit.isActive = false ∧
        (getOrCreateSession wd st).1.sid ≠ s.sid) ∧
      (st.currentSession = none → (getOrCreateSession wd st).2.2 = none)) := by
  constructor
  · rintro ⟨s, hs, hact, hdir⟩
    simp [getOrCreateSession, hs, hact, hdir]
  · intro hnone
    cases hs : st.currentSession with
    | none =>
      simp [getOrCreateSession, hs]
    | some s =>
      have hb : (s.isActive && decide (st.currentDir = wd)) = false := by
        by_cases hA : s.isActive = true
        · by_cases hD : st.currentDir = wd
          · exact absurd ⟨s, hs, hA, hD⟩ hnone
          · simp [hA, hD]
        · simp [Bool.not_eq_true] at hA
          simp [hA]
      have hsid : st.nextSid ≠ s.sid := by
        have := hwf s hs
        omega
      simp [getOrCreateSession, hs, hb, SessionObj.exit, hsid]

theorem getOrCreate_spec_witness :
    (getOrCreateSession "/b".toList
      ⟨some ⟨0, "/a".toList, true, false, []⟩, "/a".toList, 1⟩).1 =
      ⟨1, "/b".toList, true, false, []⟩ ∧
    (getOrCreateSession "/b".toList
      ⟨some ⟨0, "/a".toList, true, false, []⟩, "/a".toList, 1⟩).2.2 =
      some ⟨0, "/a".toList, false, false, []⟩ ∧
    (getOrCreateSession "/a".toList
      ⟨some ⟨0, "/a".toList, true, false, []⟩, "/a".toList, 1⟩).2.1 =
      ⟨some ⟨0, "/a".toList, true, false, []⟩, "/a".toList, 1⟩ := by
  have hwf : ∀ s, (⟨some ⟨0, "/a".toList, true, false, []⟩, "/a".toList, 1⟩ :
      RegistryState).currentSession = some s → s.sid < 1 := by
    intro s h
    simp at h
    rw [← h]
    decide
  have H1 := (getOrCreate_spec "/b".toList
    ⟨some ⟨0, "/a".toList, true, false, []⟩, "/a".toList, 1⟩ hwf).2
    (by
      rintro ⟨s, hs, hact, hdir⟩
      exact absurd hdir (by decide))
  have H2 := (getOrCreate_spec "/a".toList
    ⟨some ⟨0, "/a".toList, true, false, []⟩, "/a".toList, 1⟩ hwf).1
    ⟨⟨0, "/a".toList, true, false, []⟩, rfl, rfl, rfl⟩
  refine ⟨H1.1, ?_, H2.2.1⟩
  have := (H1.2.2.2.2.2.1 ⟨0, "/a".toList, true, false, []⟩ rfl).1
  rw [this]
  decide

/-! ## C10: cd access control -/

/-- C10: a `cd <path>` message whose argument — after expanding a leading `~`
to the home directory — resolves to an absolute path starting with neither the
home directory nor `/tmp` makes `isCdCommand` return an error result, the
daemon replies with the access-denied notice and the persisted working
directory is unchanged; a resolved path starting with home or `/tmp` is
returned for dispatch. -/
theorem cd_access_control (content home cwd : List Char)
    (dirExists : List Char → Bool) (st : DaemonState) (cap R : List Char)
    (hm : matchAnchoredCap "cd".toList (jsTrim content) = some cap)
    (hR : R = pathResolve cwd
      (if (jsTrim cap).head? = some '~' then home ++ (jsTrim cap).drop 1
       else jsTrim cap)) :
    ((home.isPrefixOf R || "/tmp".toList.isPrefixOf R) = false →
      isCdCommand content home cwd = ⟨true, none, some accessDeniedText⟩ ∧
      pollCdStep (isCdCommand content home cwd) dirExists st =
        (st, ["❌ ".toList ++ accessDeniedText]) ∧
      (pollCdStep (isCdCommand content home cwd) dirExists st).1.workingDir =
        st.workingDir) ∧
    ((home.isPrefixOf R || "/tmp".toList.isPrefixOf R) = true →
      isCdCommand content home cwd = ⟨true, some R, none⟩) := by
  subst hR
  constructor
  · intro h
    have h1 : home.isPrefixOf (pathResolve cwd
        (if (jsTrim cap).head? = some '~' then home ++ (jsTrim cap).drop 1
         else jsTrim cap)) = false := by
      cases hh : home.isPrefixOf (pathResolve cwd
        (if (jsTrim cap).head? = some '~' then home ++ (jsTrim cap).drop 1
         else jsTrim cap))
      · rfl
      · rw [hh] at h; simp at h
    have h2 : "/tmp".toList.isPrefixOf (pathResolve cwd
        (if (jsTrim cap).head? = some '~' then home ++ (jsTrim cap).drop 1
         else jsTrim cap)) = false := by
      cases hh : "/tmp".toList.isPrefixOf (pathResolve cwd
        (if (jsTrim cap).head? = some '~' then home ++ (jsTrim cap).drop 1
         else jsTrim cap))
      · rfl
      · rw [hh] at h; simp at h
    have hcmd : isCdCommand content home cwd = ⟨true, none, some accessDeniedText⟩ := by
      unfold isCdCommand
      rw [hm]
      dsimp only
      rw [h1, h2]
      rfl
    exact ⟨hcmd, by simp [pollCdStep, hcmd], by simp [pollCdStep, hcmd]⟩
  · intro h
    have hc : (!(home.isPrefixOf (pathResolve cwd
        (if (jsTrim cap).head? = some '~' then home ++ (jsTrim cap).drop 1
         else jsTrim cap))) &&
        !("/tmp".toList.isPrefixOf (pathResolve cwd
        (if (jsTrim cap).head? = some '~' then home ++ (jsTrim cap).drop 1
         else jsTrim cap)))) = false := by
      rcases Bool.or_eq_true_iff.mp h with h1 | h1
      · rw [h1]; rfl
      · rw [h1]; simp
    unfold isCdCommand
    rw [hm]
    dsimp only
    rw [hc]
    rfl

theorem cd_access_control_witness :
    isCdCommand "cd /etc".toList "/home/u".toList "/home/u".toList =
      ⟨true, none, some accessDeniedText⟩ ∧
    (pollCdStep (isCdCommand "cd /etc".toList "/home/u".toList "/home/u".toList)
      (fun _ => true) ⟨"/home/u".toList⟩).1.workingDir = "/home/u".toList ∧
    isCdCommand "cd /tmp/x".toList "/home/u".toList "/home/u".toList =
      ⟨true, some "/tmp/x".toList, none⟩ := by
  have H1 := cd_access_control "cd /etc".toList "/home/u".toList "/home/u".toList
    (fun _ => true) ⟨"/home/u".toList⟩ "/etc".toList "/etc".toList
    (by decide) (by decide)
  have H2 := cd_access_control "cd /tmp/x".toList "/home/u".toList "/home/u".toList
    (fun _ => true) ⟨"/home/u".toList⟩ "/tmp/x".toList "/tmp/x".toList
    (by decide) (by decide)
  obtain ⟨e1, _, e3⟩ := H1.1 (by decide)
  exact ⟨e1, e3, H2.2 (by decide)⟩

/-! ## C9: the `processLine` activity rate gate -/

theorem runLines_append (I : Nat) (xs ys : List (List Char × Nat)) :
    ∀ last, runLines I (xs ++ ys) last =
      runLines I xs last ++ runLines I ys (lastAfterLines I xs last) := by
  induction xs with
  | nil => intro last; simp [runLines, lastAfterLines]
  | cons ev rest ih =>
    intro last
    obtain ⟨l, n⟩ := ev
    cases hp : parseToolActivity l with
    | none => simpa [runLines, lastAfterLines, hp] using ih last
    | some act =>
      by_cases hg : last + I ≤ n <;>
        simp [runLines, lastAfterLines, hp, hg, ih]

theorem lastAfter_emissions (I : Nat) (evs : List (List Char × Nat)) :
    ∀ last, (runLines I evs last = [] → lastAfterLines I evs last = last) ∧
    (∀ e, (runLines I evs last).getLast? = some e →
      lastAfterLines I evs last = e.2) := by
  induction evs with
  | nil =>
    intro last
    exact ⟨fun _ => rfl, fun e he => by simp [runLines] at he⟩
  | cons ev rest ih =>
    intro last
    obtain ⟨l, n⟩ := ev
    cases hp : parseToolActivity l with
    | none => simpa [runLines, lastAfterLines, hp] using ih last
    | some act =>
      by_cases hg : last + I ≤ n
      · constructor
        · intro he
          simp [runLines, hp, hg] at he
        · intro e he
          simp only [runLines, hp, hg, if_pos] at he
          have hlast : lastAfterLines I ((l, n) :: rest) last =
              lastAfterLines I rest n := by
            simp [lastAfterLines, hp, hg]
          rw [hlast]
          rcases hrest : runLines I rest n with _ | ⟨x, xs⟩
          · rw [hrest] at he
            simp at he
            rw [(ih n).1 hrest, ← he]
          · rw [hrest] at he
            rw [List.getLast?_cons_cons] at he
            rw [← hrest] at he
            exact (ih n).2 e he
      · constructor
        · intro he
          rw [show runLines I ((l, n) :: rest) last = runLines I rest last from
            by simp [runLines, hp, hg]] at he
          rw [show lastAfterLines I ((l, n) :: rest) last =
            lastAfterLines I rest last from by simp [lastAfterLines, hp, hg]]
          exact (ih last).1 he
        · intro e he
          rw [show runLines I ((l, n) :: rest) last = runLines I rest last from
            by simp [runLines, hp, hg]] at he
          rw [show lastAfterLines I ((l, n) :: rest) last =
            lastAfterLines I rest last from by simp [lastAfterLines, hp, hg]]
          exact (ih last).2 e he

/-- C9 (amended): a notice is forwarded exactly when the line parses as a tool
activity and at least `I` ms have elapsed since the last forwarded notice —
`lastAfterLines` is precisely the time of the last forwarded notice (or the
initial value when none was forwarded yet); an activity arriving while the
gate is closed is dropped: it leaves the gate state untouched, is never
forwarded later, and the next activity after the gate reopens is the one
forwarded. -/
theorem activity_gate_spec (I : Nat) (pre post : List (List Char × Nat))
    (line : List Char) (t : Nat) :
    runLines I (pre ++ (line, t) :: post) 0 =
      runLines I pre 0 ++
        (match parseToolActivity line with
         | some act =>
           if lastAfterLines I pre 0 + I ≤ t then (act, t) :: runLines I post t
           else runLines I post (lastAfterLines I pre 0)
         | none => runLines I post (lastAfterLines I pre 0)) ∧
    (runLines I pre 0 = [] → lastAfterLines I pre 0 = 0) ∧
    (∀ e, (runLines I pre 0).getLast? = some e →
      lastAfterLines I pre 0 = e.2) := by
  refine ⟨?_, (lastAfter_emissions I pre 0).1, (lastAfter_emissions I pre 0).2⟩
  rw [runLines_append]
  congr 1

theorem activity_gate_spec_witness :
    lastAfterLines 1000 [("Read a.txt".toList, 5000)] 0 = 5000 ∧
    runLines 1000 ([("Read a.txt".toList, 5000)] ++ ("Read b.txt".toList, 5500) ::
      [("Read c.txt".toList, 6200)]) 0 =
      [("Reading: a.txt".toList, 5000), ("Reading: c.txt".toList, 6200)] := by
  have H := activity_gate_spec 1000 [("Read a.txt".toList, 5000)]
    [("Read c.txt".toList, 6200)] "Read b.txt".toList 5500
  refine ⟨H.2.2 ("Reading: a.txt".toList, 5000) (by decide), ?_⟩
  rw [H.1]
  decide

/-- C9 counterexample to the claim as stated: the activity dropped while the
gate was closed (`Read b.txt` at 5500) is never emitted — when the gate
reopens, the next fresh activity (`Read c.txt` at 6200) is emitted instead of
the most recent dropped one. -/
theorem activity_gate_cex :
    runLines 1000 [("Read a.txt".toList, 5000), ("Read b.txt".toList, 5500),
      ("Read c.txt".toList, 6200)] 0 =
      [("Reading: a.txt".toList, 5000), ("Reading: c.txt".toList, 6200)] ∧
    parseToolActivity "Read b.txt".toList = some "Reading: b.txt".toList ∧
    "Reading: b.txt".toList ∉
      (runLines 1000 [("Read a.txt".toList, 5000), ("Read b.txt".toList, 5500),
        ("Read c.txt".toList, 6200)] 0).map Prod.fst := by decide

/-! ## C4: infrastructure about prefixes and infixes of scanner output -/

theorem scanReplace_nil (m : List Char → Option Nat) (repl : List Char)
    (fuel : Nat) :
    scanReplace m repl fuel [] =
      (match m [] with | some _ => repl | none => []) := by
  cases fuel <;> rfl

theorem scanReplace_succ_cons (m : List Char → Option Nat) (repl : List Char)
    (fuel : Nat) (c : Char) (cs : List Char) :
    scanReplace m repl (fuel + 1) (c :: cs) =
      (match m (c :: cs) with
       | some 0 => repl ++ c :: scanReplace m repl fuel cs
       | some (Nat.succ n) => repl ++ scanReplace m repl fuel (cs.drop n)
       | none => c :: scanReplace m repl fuel cs) := rfl

theorem infixP_cons {p : List Char} {a : Char} {M : List Char} :
    p <:+: a :: M → p <+: a :: M ∨ p <:+: M := by
  rintro ⟨s, t, h⟩
  cases s with
  | nil => exact Or.inl ⟨t, by simpa using h⟩
  | cons a' s' =>
    right
    rw [List.cons_append, List.cons_append] at h
    injection h with h1 h2
    exact ⟨s', t, h2⟩

theorem prefix_cons_split {p : List Char} {a : Char} {M : List Char}
    (hne : p ≠ []) (h : p <+: a :: M) : ∃ p', p = a :: p' ∧ p' <+: M := by
  obtain ⟨t, ht⟩ := h
  cases p with
  | nil => exact absurd rfl hne
  | cons c p' =>
    rw [List.cons_append] at ht
    injection ht with h1 h2
    exact ⟨p', by rw [h1], ⟨t, h2⟩⟩

theorem prefix_isInfix {p l : List Char} (h : p <+: l) : p <:+: l := by
  obtain ⟨t, ht⟩ := h
  exact ⟨[], t, by simpa using ht⟩

theorem infix_cons_extend {p M : List Char} {a : Char} (h : p <:+: M) :
    p <:+: a :: M := by
  obtain ⟨s, t, hh⟩ := h
  exact ⟨a :: s, t, by rw [List.cons_append, List.cons_append, hh]⟩

theorem infix_of_infix_drop {p l : List Char} {k : Nat}
    (h : p <:+: l.drop k) : p <:+: l := by
  obtain ⟨s, t, hh⟩ := h
  exact ⟨l.take k ++ s, t, by
    rw [List.append_assoc, List.append_assoc]
    rw [List.append_assoc] at hh
    rw [hh, List.take_append_drop]⟩

theorem not_infix_nil {p : List Char} (hne : p ≠ []) : ¬ p <:+: ([] : List Char) := by
  rintro ⟨s, t, h⟩
  rcases List.append_eq_nil.mp h with ⟨h1, h2⟩
  rcases List.append_eq_nil.mp h1 with ⟨_, h3⟩
  exact hne h3

theorem prefix_length_or_mem {p : List Char} {x : Char} :
    ∀ {A C : List Char}, p <+: A ++ x :: C → p.length ≤ A.length ∨ x ∈ p := by
  intro A
  induction A generalizing p with
  | nil =>
    intro C h
    cases p with
    | nil => exact Or.inl (by simp)
    | cons c p' =>
      obtain ⟨t, ht⟩ := h
      rw [List.nil_append, List.cons_append] at ht
      injection ht with h1 _
      exact Or.inr (by rw [h1]; exact List.mem_cons_self _ _)
  | cons a A' ih =>
    intro C h
    cases p with
    | nil => exact Or.inl (by simp)
    | cons c p' =>
      obtain ⟨t, ht⟩ := h
      rw [List.cons_append, List.cons_append] at ht
      injection ht with h1 h2
      rcases ih (p := p') ⟨t, h2⟩ with hl | hx
      · exact Or.inl (by simpa using Nat.succ_le_succ hl)
      · exact Or.inr (by simp [hx])

theorem prefix_shorten {p A B : List Char} (h : p <+: A ++ B)
    (hlen : p.length ≤ A.length) : p <+: A := by
  obtain ⟨t, ht⟩ := h
  have h1 : (A ++ B).take p.length = A.take p.length := by
    rw [List.take_append_eq_append_take]
    simp [Nat.sub_eq_zero_of_le hlen]
  have h2 : (p ++ t).take p.length = p := by
    rw [List.take_append_eq_append_take]
    simp
  rw [ht] at h2
  rw [h2] at h1
  rw [h1]
  exact ⟨A.drop p.length, List.take_append_drop _ _⟩

theorem infix_split_at_char {p : List Char} {x : Char} (hx : x ∉ p)
    (hne : p ≠ []) :
    ∀ (X : List Char) {Y : List Char}, p <:+: X ++ x :: Y → p <:+: X ∨ p <:+: Y := by
  intro X
  induction X with
  | nil =>
    intro Y h
    rw [List.nil_append] at h
    rcases infixP_cons h with h1 | h1
    · obtain ⟨p', hp, _⟩ := prefix_cons_split hne h1
      exact absurd (by rw [hp]; exact List.mem_cons_self _ _) hx
    · exact Or.inr h1
  | cons a X' ih =>
    intro Y h
    rw [List.cons_append] at h
    rcases infixP_cons h with h1 | h1
    · rw [← List.cons_append] at h1
      rcases prefix_length_or_mem h1 with hl | hmem
      · exact Or.inl (prefix_isInfix (prefix_shorten h1 hl))
      · exact absurd hmem hx
    · rcases ih h1 with h2 | h2
      · exact Or.inl (infix_cons_extend h2)
      · exact Or.inr h2

/-! ## C4: facts about the dangerous-pattern matchers -/

/-- The literal the C4 claim is about. -/
def isFromMeLit : List Char := "is_from_me: true".toList

theorem mIsFromMe_onL (r : List Char) :
    mIsFromMe (isFromMeLit ++ r) = some 16 := rfl

theorem mIsFromMe_ne_zero : ∀ cs, mIsFromMe cs ≠ some 0 := by
  intro cs h
  unfold mIsFromMe at h
  simp only [] at h
  repeat' split at h
  all_goals first
    | exact Option.noConfusion h
    | (injection h with h; omega)

theorem mSender_ne_zero : ∀ cs, mSender cs ≠ some 0 := by
  intro cs h
  unfold mSender at h
  simp only [] at h
  repeat' split at h
  all_goals first
    | exact Option.noConfusion h
    | (injection h with h; omega)

theorem mDate_ne_zero : ∀ cs, mDate cs ≠ some 0 := by
  intro cs h
  unfold mDate at h
  simp only [] at h
  repeat' split at h
  all_goals first
    | exact Option.noConfusion h
    | (injection h with h; omega)

theorem mHandle_ne_zero : ∀ cs, mHandle cs ≠ some 0 := by
  intro cs h
  unfold mHandle at h
  simp only [] at h
  repeat' split at h
  all_goals first
    | exact Option.noConfusion h
    | (injection h with h; omega)

theorem mLit_ne_zero (lit : List Char) (hne : lit ≠ []) :
    ∀ cs, mLit lit cs ≠ some 0 := by
  intro cs h
  unfold mLit at h
  repeat' split at h
  all_goals first
    | exact Option.noConfusion h
    | (injection h with h; exact hne (List.length_eq_zero.mp h))

/-! ## C4: scanner lemmas for `scanReplace` with the `[FILTERED]` marker -/

theorem prefix_marker_append {p Z : List Char} (hbr : '[' ∉ p)
    (hp : p <+: filteredMarker ++ Z) : p = [] := by
  cases p with
  | nil => rfl
  | cons d p' =>
    rw [show filteredMarker ++ Z = '[' :: ("FILTERED]".toList ++ Z) from rfl] at hp
    obtain ⟨p'', hpe, _⟩ := prefix_cons_split (List.cons_ne_nil _ _) hp
    have : '[' ∈ d :: p' := by rw [hpe]; exact List.mem_cons_self _ _
    exact absurd this hbr

theorem prefix_scan_nil (m : List Char → Option Nat) (fuel : Nat)
    {p : List Char} (hbr : '[' ∉ p)
    (hp : p <+: scanReplace m filteredMarker fuel []) : p = [] := by
  rw [scanReplace_nil] at hp
  cases hm : m [] with
  | some k =>
    simp only [hm] at hp
    rw [← List.append_nil filteredMarker] at hp
    exact prefix_marker_append hbr hp
  | none =>
    simp only [hm] at hp
    obtain ⟨t, ht⟩ := hp
    cases p with
    | nil => rfl
    | cons d p' => exact absurd ht (by simp)

theorem scan_prefix_inv (m : List Char → Option Nat) :
    ∀ (fuel : Nat) (cs p : List Char), '[' ∉ p →
      p <+: scanReplace m filteredMarker fuel cs → p <+: cs := by
  intro fuel
  induction fuel with
  | zero =>
    intro cs p hbr hp
    cases cs with
    | nil =>
      rw [prefix_scan_nil m 0 hbr hp]
    | cons c cs' => exact hp
  | succ fuel ih =>
    intro cs p hbr hp
    cases cs with
    | nil =>
      rw [prefix_scan_nil m (fuel + 1) hbr hp]
    | cons c cs' =>
      rw [scanReplace_succ_cons] at hp
      cases hm : m (c :: cs') with
      | none =>
        simp only [hm] at hp
        cases p with
        | nil => exact ⟨c :: cs', rfl⟩
        | cons d p' =>
          obtain ⟨p'', hpe, hp2⟩ := prefix_cons_split (List.cons_ne_nil _ _) hp
          injection hpe with h1 h2
          have hbr' : '[' ∉ p'' := by
            rw [← h2]
            intro hx
            exact hbr (List.mem_cons_of_mem _ hx)
          obtain ⟨t, ht⟩ := ih cs' p'' hbr' hp2
          exact ⟨t, by rw [h1, h2, List.cons_append, ht]⟩
      | some k =>
        cases k with
        | zero =>
          simp only [hm] at hp
          rw [prefix_marker_append hbr hp]
          exact ⟨c :: cs', rfl⟩
        | succ n =>
          simp only [hm] at hp
          rw [prefix_marker_append hbr hp]
          exact ⟨c :: cs', rfl⟩

theorem marker_infix_of_existsMatch (m : List Char → Option Nat)
    (hnil : m [] = none) :
    ∀ (fuel : Nat) (cs : List Char), cs.length ≤ fuel →
      existsMatch m cs = true →
      filteredMarker <:+: scanReplace m filteredMarker fuel cs := by
  intro fuel
  induction fuel with
  | zero =>
    intro cs hlen hex
    cases cs with
    | nil => simp [existsMatch, hnil] at hex
    | cons c cs' => simp at hlen
  | succ fuel ih =>
    intro cs hlen hex
    cases cs with
    | nil => simp [existsMatch, hnil] at hex
    | cons c cs' =>
      rw [scanReplace_succ_cons]
      cases hm : m (c :: cs') with
      | some k =>
        cases k with
        | zero => exact prefix_isInfix ⟨_, rfl⟩
        | succ n => exact prefix_isInfix ⟨_, rfl⟩
      | none =>
        have hex' : existsMatch m cs' = true := by
          simpa [existsMatch, hm] using hex
        exact infix_cons_extend (ih cs' (by simpa using hlen) hex')

theorem existsMatch_of_infix (m : List Char → Option Nat) (L : List Char)
    (hL : L ≠ []) (hsome : ∀ r, (m (L ++ r)).isSome = true) :
    ∀ {cs : List Char}, L <:+: cs → existsMatch m cs = true := by
  rintro cs ⟨s, t, hh⟩
  induction s generalizing cs with
  | nil =>
    rw [List.nil_append] at hh
    subst hh
    cases hcs : L ++ t with
    | nil => exact absurd (List.append_eq_nil.mp hcs).1 hL
    | cons c cs' =>
      have h1 := hsome t
      rw [hcs] at h1
      simp [existsMatch, h1]
  | cons a s' ih =>
    rw [List.cons_append, List.cons_append] at hh
    subst hh
    simp only [existsMatch, Bool.or_eq_true]
    exact Or.inr (ih rfl)

theorem not_infix_scan_nil {m : List Char → Option Nat} {L : List Char}
    (hL : L ≠ []) (hLmark : ¬ L <:+: filteredMarker) (fuel : Nat) :
    ¬ L <:+: scanReplace m filteredMarker fuel [] := by
  intro hinf
  rw [scanReplace_nil] at hinf
  cases hm : m [] with
  | some k =>
    rw [hm] at hinf
    exact hLmark hinf
  | none =>
    rw [hm] at hinf
    exact not_infix_nil hL hinf

/-- A scan with the `[FILTERED]` replacement cannot create a new occurrence of
a bracket-free word `L`: if `L` was not an infix of the input, it is not an
infix of the output. -/
theorem scan_preserves_not_infix (m : List Char → Option Nat) (L : List Char)
    (hL : L ≠ []) (hbrL : '[' ∉ L) (hrbL : ']' ∉ L)
    (hLmark : ¬ L <:+: filteredMarker)
    (hLF : ¬ L <:+: "[FILTERED".toList)
    (hm0 : ∀ cs, m cs ≠ some 0) :
    ∀ (fuel : Nat) (cs : List Char), cs.length ≤ fuel → ¬ L <:+: cs →
      ¬ L <:+: scanReplace m filteredMarker fuel cs := by
  intro fuel
  induction fuel with
  | zero =>
    intro cs hlen hno hinf
    cases cs with
    | nil => exact not_infix_scan_nil hL hLmark 0 hinf
    | cons c cs' => simp at hlen
  | succ fuel ih =>
    intro cs hlen hno hinf
    cases cs with
    | nil => exact not_infix_scan_nil hL hLmark (fuel + 1) hinf
    | cons c cs' =>
      rw [List.length_cons] at hlen
      rw [scanReplace_succ_cons] at hinf
      cases hm : m (c :: cs') with
      | some k =>
        cases k with
        | zero => exact hm0 _ hm
        | succ n =>
          simp only [hm] at hinf
          rw [show filteredMarker ++
              scanReplace m filteredMarker fuel (cs'.drop n) =
              "[FILTERED".toList ++ ']' ::
                scanReplace m filteredMarker fuel (cs'.drop n) from rfl] at hinf
          rcases infix_split_at_char hrbL hL _ hinf with h1 | h1
          · exact hLF h1
          · have hlen' : (cs'.drop n).length ≤ fuel := by
              rw [List.length_drop]
              omega
            have hno' : ¬ L <:+: cs'.drop n := fun hx =>
              hno (infix_cons_extend (infix_of_infix_drop hx))
            exact ih (cs'.drop n) hlen' hno' h1
      | none =>
        simp only [hm] at hinf
        rcases infixP_cons hinf with h1 | h1
        · obtain ⟨L', hLe, hLp⟩ := prefix_cons_split hL h1
          have hbr' : '[' ∉ L' := fun hx =>
            hbrL (by rw [hLe]; exact List.mem_cons_of_mem _ hx)
          obtain ⟨t, ht⟩ := scan_prefix_inv m fuel cs' L' hbr' hLp
          exact hno (prefix_isInfix ⟨t, by rw [hLe, List.cons_append, ht]⟩)
        · exact ih cs' (by omega) (fun hx => hno (infix_cons_extend hx)) h1

/-- A scan whose matcher succeeds on every `L`-prefixed suffix removes every
occurrence of `L`: `L` is never an infix of the output. -/
theorem scan_removes_L (m : List Char → Option Nat) (L : List Char)
    (hL : L ≠ []) (hbrL : '[' ∉ L) (hrbL : ']' ∉ L)
    (hLmark : ¬ L <:+: filteredMarker)
    (hLF : ¬ L <:+: "[FILTERED".toList)
    (hm0 : ∀ cs, m cs ≠ some 0)
    (hsome : ∀ r, (m (L ++ r)).isSome = true) :
    ∀ (fuel : Nat) (cs : List Char), cs.length ≤ fuel →
      ¬ L <:+: scanReplace m filteredMarker fuel cs := by
  intro fuel
  induction fuel with
  | zero =>
    intro cs hlen hinf
    cases cs with
    | nil => exact not_infix_scan_nil hL hLmark 0 hinf
    | cons c cs' => simp at hlen
  | succ fuel ih =>
    intro cs hlen hinf
    cases cs with
    | nil => exact not_infix_scan_nil hL hLmark (fuel + 1) hinf
    | cons c cs' =>
      rw [List.length_cons] at hlen
      rw [scanReplace_succ_cons] at hinf
      cases hm : m (c :: cs') with
      | some k =>
        cases k with
        | zero => exact hm0 _ hm
        | succ n =>
          simp only [hm] at hinf
          rw [show filteredMarker ++
              scanReplace m filteredMarker fuel (cs'.drop n) =
              "[FILTERED".toList ++ ']' ::
                scanReplace m filteredMarker fuel (cs'.drop n) from rfl] at hinf
          rcases infix_split_at_char hrbL hL _ hinf with h1 | h1
          · exact hLF h1
          · have hlen' : (cs'.drop n).length ≤ fuel := by
              rw [List.length_drop]
              omega
            exact ih (cs'.drop n) hlen' h1
      | none =>
        simp only [hm] at hinf
        rcases infixP_cons hinf with h1 | h1
        · obtain ⟨L', hLe, hLp⟩ := prefix_cons_split hL h1
          have hbr' : '[' ∉ L' := fun hx =>
            hbrL (by rw [hLe]; exact List.mem_cons_of_mem _ hx)
          obtain ⟨t, ht⟩ := scan_prefix_inv m fuel cs' L' hbr' hLp
          have hsomet := hsome t
          rw [show L ++ t = c :: cs' from by
            rw [hLe, List.cons_append, ht], hm] at hsomet
          exact Bool.noConfusion hsomet
        · exact ih cs' (by omega) h1

/-! ## C4: assembling `sanitizeMessageContent` -/

theorem foldl_sanitize_preserve (ms : List (List Char → Option Nat))
    (hms : ∀ m ∈ ms, (∀ cs, m cs ≠ some 0) ∧ m [] = none) :
    ∀ (s : List Char) (f : Bool), filteredMarker <:+: s →
      ¬ isFromMeLit <:+: s → f = true →
      filteredMarker <:+: (List.foldl sanitizeStep (s, f) ms).1 ∧
      ¬ isFromMeLit <:+: (List.foldl sanitizeStep (s, f) ms).1 ∧
      (List.foldl sanitizeStep (s, f) ms).2 = true := by
  induction ms with
  | nil =>
    intro s f h1 h2 h3
    exact ⟨h1, h2, h3⟩
  | cons m ms ih =>
    intro s f h1 h2 h3
    obtain ⟨hm0, hmnil⟩ := hms m (by simp)
    have hms' : ∀ m' ∈ ms, (∀ cs, m' cs ≠ some 0) ∧ m' [] = none :=
      fun m' hm' => hms m' (List.mem_cons_of_mem _ hm')
    rw [List.foldl_cons]
    by_cases hex : existsMatch m s = true
    · have hstep : sanitizeStep (s, f) m =
          (scanReplace m filteredMarker s.length s, true) := by
        simp [sanitizeStep, hex]
      rw [hstep]
      exact ih hms' _ _
        (marker_infix_of_existsMatch m hmnil s.length s le_rfl hex)
        ( scan_preserves_not_infix m isFromMeLit (by decide) (by decide)
          (by decide) (by decide) (by decide) hm0 s.length s le_rfl h2)
        rfl
    · have hstep : sanitizeStep (s, f) m = (s, f) := by
        simp [sanitizeStep, hex]
      rw [hstep]
      exact ih hms' s f h1 h2 h3

theorem foldl_sanitize_noop (ms : List (List Char → Option Nat)) :
    ∀ (s : List Char) (f : Bool), (∀ m ∈ ms, existsMatch m s = false) →
      List.foldl sanitizeStep (s, f) ms = (s, f) := by
  induction ms with
  | nil => intro s f _; rfl
  | cons m ms ih =>
    intro s f hall
    rw [List.foldl_cons]
    have hstep : sanitizeStep (s, f) m = (s, f) := by
      simp [sanitizeStep, hall m (by simp)]
    rw [hstep]
    exact ih s f (fun m' hm' => hall m' (by simp [hm']))

/-- C4: an input containing the literal `is_from_me: true` is sanitized to a
text that contains the `[FILTERED]` marker and no longer contains the literal,
and exactly one `content_sanitized` audit event is emitted; an input matching
no dangerous pattern passes through unchanged with no audit event.
(`sanitizeMessageContent` is a total function of its input — it never
throws.) -/
theorem sanitize_spec (content : List Char) :
    (isFromMeLit <:+: content →
      filteredMarker <:+: (sanitizeMessageContent content).1 ∧
      ¬ isFromMeLit <:+: (sanitizeMessageContent content).1 ∧
      sanitizeAuditEvents content = ["content_sanitized"]) ∧
    ((∀ m ∈ dangerousPatterns, existsMatch m content = false) →
      (sanitizeMessageContent content).1 = content ∧
      sanitizeAuditEvents content = []) := by
  constructor
  · intro hinf
    have hex : existsMatch mIsFromMe content = true :=
      existsMatch_of_infix mIsFromMe isFromMeLit (by decide)
        (fun r => by rw [mIsFromMe_onL]; rfl) hinf
    have hfold : sanitizeMessageContent content =
        List.foldl sanitizeStep
          (scanReplace mIsFromMe filteredMarker content.length content, true)
          [mSender, mDate, mHandle, mLit "[system]".toList,
           mLit "[daemon]".toList, mLit "[admin]".toList] := by
      rw [sanitizeMessageContent]
      rw [show dangerousPatterns = mIsFromMe ::
        [mSender, mDate, mHandle, mLit "[system]".toList,
         mLit "[daemon]".toList, mLit "[admin]".toList] from rfl]
      rw [List.foldl_cons]
      congr 1
      simp [sanitizeStep, hex]
    have hms : ∀ m ∈ [mSender, mDate, mHandle, mLit "[system]".toList,
        mLit "[daemon]".toList, mLit "[admin]".toList],
        (∀ cs, m cs ≠ some 0) ∧ m [] = none := by
      intro m hm
      simp only [List.mem_cons, List.not_mem_nil, or_false] at hm
      rcases hm with rfl | rfl | rfl | rfl | rfl | rfl
      · exact ⟨mSender_ne_zero, by decide⟩
      · exact ⟨mDate_ne_zero, by decide⟩
      · exact ⟨mHandle_ne_zero, by decide⟩
      · exact ⟨mLit_ne_zero _ (by decide), by decide⟩
      · exact ⟨mLit_ne_zero _ (by decide), by decide⟩
      · exact ⟨mLit_ne_zero _ (by decide), by decide⟩
    obtain ⟨hmark, hnoL, hflag⟩ := foldl_sanitize_preserve _ hms
      (scanReplace mIsFromMe filteredMarker content.length content) true
      (marker_infix_of_existsMatch mIsFromMe (by decide) content.length
        content le_rfl hex)
      (scan_removes_L mIsFromMe isFromMeLit (by decide) (by decide) (by decide)
        (by decide) (by decide) mIsFromMe_ne_zero
        (fun r => by rw [mIsFromMe_onL]; rfl) content.length content le_rfl)
      rfl
    rw [← hfold] at hmark hnoL hflag
    refine ⟨hmark, hnoL, ?_⟩
    rw [sanitizeAuditEvents, if_pos hflag]
  · intro hall
    have hfold : sanitizeMessageContent content = (content, false) :=
      foldl_sanitize_noop dangerousPatterns content false hall
    refine ⟨by rw [hfold], ?_⟩
    rw [sanitizeAuditEvents, hfold]
    simp

theorem sanitize_spec_witness :
    (filteredMarker <:+:
      (sanitizeMessageContent "x is_from_me: true y".toList).1 ∧
     ¬ isFromMeLit <:+:
      (sanitizeMessageContent "x is_from_me: true y".toList).1 ∧
     sanitizeAuditEvents "x is_from_me: true y".toList =
       ["content_sanitized"]) ∧
    (sanitizeMessageContent "hello".toList).1 = "hello".toList ∧
    sanitizeAuditEvents "hello".toList = [] := by
  refine ⟨(sanitize_spec "x is_from_me: true y".toList).1 (by decide),
    (sanitize_spec "hello".toList).2 (by decide)⟩

/-! ## C5: utilities about trims, appends and the duplicate heuristic -/

theorem length_dropWhile_le_self (p : Char → Bool) (l : List Char) :
    (l.dropWhile p).length ≤ l.length := by
  induction l with
  | nil => simp
  | cons c t ih =>
    by_cases h : p c = true
    · rw [List.dropWhile_cons, if_pos h]
      exact le_trans ih (by simp)
    · rw [List.dropWhile_cons, if_neg h]

theorem length_jsTrim_le (s : List Char) : (jsTrim s).length ≤ s.length := by
  have h1 : (jsTrimStart s).length ≤ s.length :=
    length_dropWhile_le_self _ _
  have h2 : (jsTrimEnd (jsTrimStart s)).length ≤ (jsTrimStart s).length := by
    rw [jsTrimEnd]
    simpa using length_dropWhile_le_self isWs (jsTrimStart s).reverse
  exact le_trans h2 h1

theorem head?_append_left {t : List Char} (X : List Char) (h : t ≠ []) :
    (t ++ X).head? = t.head? := by
  cases t with
  | nil => exact absurd rfl h
  | cons c t' => rfl

theorem getLast?_append_right (X : List Char) {Y : List Char} (h : Y ≠ []) :
    (X ++ Y).getLast? = Y.getLast? := by
  rw [getLast?_eq_head?_reverse, getLast?_eq_head?_reverse (l := Y),
    List.reverse_append]
  exact head?_append_left _ (by simpa using h)

theorem allWs_take {l : List Char} (k : Nat) (h : allWs l) :
    allWs (l.take k) := fun c hc => h c (List.take_subset k l hc)

theorem head?_take {l : List Char} {n : Nat} (hn : 0 < n) :
    (l.take n).head? = l.head? := by
  cases l with
  | nil => simp
  | cons c t =>
    cases n with
    | zero => exact absurd hn (by simp)
    | succ m => rfl

theorem getLast?_drop {l : List Char} {n : Nat} (hn : n < l.length) :
    (l.drop n).getLast? = l.getLast? := by
  conv_rhs => rw [← List.take_append_drop n l]
  rw [getLast?_append_right]
  intro h
  have := congrArg List.length h
  simp [List.length_drop] at this
  omega

theorem take_app_exact (t r : List Char) (k : Nat) :
    (t ++ r).take (t.length + k) = t ++ r.take k := by
  rw [List.take_append_eq_append_take]
  simp

theorem drop_app_exact (t r : List Char) (k : Nat) :
    (t ++ r).drop (t.length + k) = r.drop k := by
  rw [List.drop_append_eq_append_drop]
  simp

theorem exists_getLast_mem {m : List Char} (h : m ≠ []) :
    ∃ c, m.getLast? = some c ∧ c ∈ m := by
  cases hm : m.reverse with
  | nil => exact absurd (by simpa using congrArg List.reverse hm) h
  | cons c r =>
    refine ⟨c, ?_, ?_⟩
    · rw [getLast?_eq_head?_reverse, hm]; rfl
    · have : c ∈ m.reverse := by rw [hm]; exact List.mem_cons_self _ _
      simpa using this

theorem eq_append_ws_of_trim (u v : List Char) (huv : jsTrim u = v)
    {c : Char} (hc : u.head? = some c) (hcw : isWs c = false) :
    ∃ q, allWs q ∧ u = v ++ q := by
  obtain ⟨p, q, hp, hq, hsplit⟩ := jsTrim_decompose u
  rw [huv] at hsplit
  cases p with
  | nil => exact ⟨q, hq, by simpa using hsplit⟩
  | cons d p' =>
    rw [hsplit] at hc
    have : d = c := by
      rw [List.cons_append, List.cons_append] at hc
      injection hc
    exact absurd (this ▸ hp d (List.mem_cons_self _ _)) (by rw [hcw]; simp)

theorem eq_ws_append_of_trim (u v : List Char) (huv : jsTrim u = v)
    {c : Char} (hc : u.getLast? = some c)
    (hcw : isWs c = false) : ∃ q, allWs q ∧ u = q ++ v := by
  obtain ⟨p, q, hp, hq, hsplit⟩ := jsTrim_decompose u
  rw [huv] at hsplit
  cases hqq : q.reverse with
  | nil =>
    have hq0 : q = [] := by simpa using congrArg List.reverse hqq
    exact ⟨p, hp, by rw [hsplit, hq0, List.append_nil]⟩
  | cons d q' =>
    have hmem : d ∈ q := by
      have : d ∈ q.reverse := by rw [hqq]; exact List.mem_cons_self _ _
      simpa using this
    have hlast : u.getLast? = some d := by
      rw [hsplit, List.append_assoc, getLast?_append_right,
        getLast?_append_right, getLast?_eq_head?_reverse, hqq]
      · rfl
      · intro h0; rw [h0] at hqq; simp at hqq
      · intro h0
        rcases List.append_eq_nil.mp h0 with ⟨_, h2⟩
        rw [h2] at hqq; simp at hqq
    rw [hc] at hlast
    injection hlast with hdc
    exact absurd (hdc ▸ hq d hmem) (by rw [hcw]; simp)

theorem allWs_drop {l : List Char} (k : Nat) (h : allWs l) :
    allWs (l.drop k) := fun c hc => h c (List.drop_subset k l hc)

/-- Core of the duplicate-split uniqueness argument: if `t W t = u V u` with
`V` whitespace and `u` a strict prefix of `t`, then the remainder of `t` is
whitespace, contradicting that `t` ends in a non-whitespace character. -/
theorem dup_core {t u m W V : List Char} (hV : allWs V)
    (htl : ∀ c, t.getLast? = some c → isWs c = false)
    (htm : t = u ++ m) (hmne : m ≠ [])
    (hEq : t ++ W ++ t = u ++ V ++ u) : False := by
  have hlen := congrArg List.length hEq
  simp only [htm, List.length_append] at hlen
  have hmV : m.length ≤ V.length := by omega
  have hEq' : u ++ (m ++ (W ++ (u ++ m))) = u ++ (V ++ u) := by
    calc u ++ (m ++ (W ++ (u ++ m)))
        = (u ++ m) ++ W ++ (u ++ m) := by simp [List.append_assoc]
      _ = t ++ W ++ t := by rw [← htm]
      _ = u ++ V ++ u := hEq
      _ = u ++ (V ++ u) := by simp [List.append_assoc]
  have h2 := congrArg (List.drop u.length) hEq'
  rw [List.drop_left, List.drop_left] at h2
  have h3 := congrArg (List.take m.length) h2
  rw [List.take_left, List.take_append_eq_append_take,
    Nat.sub_eq_zero_of_le hmV] at h3
  simp only [List.take_zero, List.append_nil] at h3
  have hmws : allWs m := by rw [h3]; exact allWs_take _ hV
  obtain ⟨c, hc, hcm⟩ := exists_getLast_mem hmne
  have hctl : t.getLast? = some c := by
    rw [htm, getLast?_append_right _ hmne, hc]
  exact absurd (hmws c hcm) (by rw [htl c hctl]; simp)

/-- The duplicate-split decomposition of a both-ends-trimmed text is unique:
`t W t = u V u` with whitespace `W`, `V` forces `u = t`. -/
theorem dup_split_unique {t u W V : List Char} (hW : allWs W) (hV : allWs V)
    (htl : ∀ c, t.getLast? = some c → isWs c = false)
    (hul : ∀ c, u.getLast? = some c → isWs c = false)
    (hEq : t ++ W ++ t = u ++ V ++ u) : u = t := by
  rcases lt_trichotomy u.length t.length with hlt | heq | hgt
  · exfalso
    have hL : (t ++ W ++ t).take u.length = t.take u.length := by
      rw [List.append_assoc, List.take_append_eq_append_take,
        Nat.sub_eq_zero_of_le (le_of_lt hlt)]
      simp
    have hR : (u ++ V ++ u).take u.length = u := by
      rw [List.append_assoc, List.take_append_eq_append_take, Nat.sub_self]
      simp
    have h1 : t.take u.length = u := by rw [← hL, hEq, hR]
    have htm : t = u ++ t.drop u.length := by
      conv_lhs => rw [← List.take_append_drop u.length t]
      rw [h1]
    have hmne : t.drop u.length ≠ [] := by
      intro h0
      have := congrArg List.length h0
      simp [List.length_drop] at this
      omega
    exact dup_core hV htl htm hmne hEq
  · have hL : (t ++ W ++ t).take t.length = t := by
      rw [List.append_assoc, List.take_append_eq_append_take, Nat.sub_self]
      simp
    have hR : (u ++ V ++ u).take t.length = u := by
      rw [List.append_assoc, List.take_append_eq_append_take, ← heq,
        Nat.sub_self]
      simp
    rw [← hL, hEq, hR]
  · exfalso
    have hL : (u ++ V ++ u).take t.length = u.take t.length := by
      rw [List.append_assoc, List.take_append_eq_append_take,
        Nat.sub_eq_zero_of_le (le_of_lt hgt)]
      simp
    have hR : (t ++ W ++ t).take t.length = t := by
      rw [List.append_assoc, List.take_append_eq_append_take, Nat.sub_self]
      simp
    have h1 : u.take t.length = t := by rw [← hL, ← hEq, hR]
    have htm : u = t ++ u.drop t.length := by
      conv_lhs => rw [← List.take_append_drop t.length u]
      rw [h1]
    have hmne : u.drop t.length ≠ [] := by
      intro h0
      have := congrArg List.length h0
      simp [List.length_drop] at this
      omega
    exact dup_core hW hul htm hmne hEq.symm

theorem findSome?_eq_of_unique {α β : Type} (f : α → Option β) (l : List α)
    (t : β) (hex : ∃ x ∈ l, (f x).isSome = true)
    (huniq : ∀ x v, f x = some v → v = t) :
    l.findSome? f = some t := by
  induction l with
  | nil => simp at hex
  | cons x l' ih =>
    cases hfx : f x with
    | some v =>
      simp only [List.findSome?_cons, hfx]
      rw [huniq x v hfx]
    | none =>
      simp only [List.findSome?_cons, hfx]
      apply ih
      obtain ⟨y, hy, hys⟩ := hex
      rcases List.mem_cons.mp hy with rfl | hy'
      · rw [hfx] at hys
        exact absurd hys (by simp)
      · exact ⟨y, hy', hys⟩

theorem allWs_append {x y : List Char} (hx : allWs x) (hy : allWs y) :
    allWs (x ++ y) := by
  intro c hc
  rcases List.mem_append.mp hc with h | h
  · exact hx c h
  · exact hy c h


/-- The first scan of `deduplicateResponse` on a doubled trimmed text
`t ++ W ++ t` (whitespace `W`) returns exactly `t`. -/
theorem dedupPhase1_doubled (t W : List Char) (hW : allWs W)
    (hT : 60 ≤ t.length)
    (hth : ∀ c, t.head? = some c → isWs c = false)
    (htl : ∀ c, t.getLast? = some c → isWs c = false) :
    dedupPhase1 (t ++ W ++ t) = some t := by
  have htne : t ≠ [] := by
    intro h0
    rw [h0] at hT
    simp at hT
  obtain ⟨c0, hc0⟩ : ∃ c, t.head? = some c := by
    cases t with
    | nil => exact absurd rfl htne
    | cons c ts => exact ⟨c, rfl⟩
  obtain ⟨c1, hc1, _⟩ := exists_getLast_mem htne
  have hlen : (t ++ W ++ t).length = 2 * t.length + W.length := by
    simp [List.length_append]
    omega
  have hhead : (t ++ W ++ t).head? = some c0 := by
    rw [head?_append_left _ (by simp [htne]), head?_append_left _ htne, hc0]
  have hlast : (t ++ W ++ t).getLast? = some c1 := by
    rw [getLast?_append_right _ htne, hc1]
  have htake : ∀ k, k ≤ W.length →
      (t ++ W ++ t).take (t.length + k) = t ++ W.take k := by
    intro k hk
    rw [List.append_assoc, take_app_exact, List.take_append_eq_append_take,
      Nat.sub_eq_zero_of_le hk]
    simp
  have hdrop : ∀ k, k ≤ W.length →
      (t ++ W ++ t).drop (t.length + k) = W.drop k ++ t := by
    intro k hk
    rw [List.append_assoc, drop_app_exact, List.drop_append_eq_append_drop,
      Nat.sub_eq_zero_of_le hk]
    simp
  have htrim1 : ∀ k, k ≤ W.length → jsTrim (t ++ W.take k) = t := by
    intro k _
    have := jsTrim_sandwich [] t (W.take k)
      (fun c hc => absurd hc (List.not_mem_nil c)) (allWs_take _ hW)
      htne hth htl
    simpa using this
  have htrim2 : ∀ k, k ≤ W.length → jsTrim (W.drop k ++ t) = t := by
    intro k _
    have := jsTrim_sandwich (W.drop k) t []
      (allWs_drop _ hW) (fun c hc => absurd hc (List.not_mem_nil c))
      htne hth htl
    simpa using this
  unfold dedupPhase1
  dsimp only
  apply findSome?_eq_of_unique
  · have h50 : (50 : Nat) < 101 := by omega
    have hmem := List.mem_map_of_mem
      (fun i : Nat => ((t ++ W ++ t).length : Int) / 2 - 50 + (i : Int))
      (List.mem_range.mpr h50)
    refine ⟨_, hmem, ?_⟩
    have hx : ((t ++ W ++ t).length : Int) / 2 - 50 + ((50 : Nat) : Int) =
        ((t.length + W.length / 2 : Nat) : Int) := by
      omega
    simp only []
    rw [hx]
    have hguard : ¬ (((t.length + W.length / 2 : Nat) : Int) ≤ 0 ∨
        ((t ++ W ++ t).length : Int) ≤
          ((t.length + W.length / 2 : Nat) : Int)) := by
      omega
    rw [if_neg hguard]
    have htoNat : (((t.length + W.length / 2 : Nat) : Int)).toNat =
        t.length + W.length / 2 := by
      omega
    rw [htoNat, htake _ (Nat.div_le_self _ _), hdrop _ (Nat.div_le_self _ _),
      htrim1 _ (Nat.div_le_self _ _), htrim2 _ (Nat.div_le_self _ _)]
    rw [if_pos ⟨rfl, by omega⟩]
    rfl
  · intro sp v hfv
    simp only [] at hfv
    split at hfv
    · exact absurd hfv (by simp)
    · rename_i hg
      push_neg at hg
      obtain ⟨hg1, hg2⟩ := hg
      have hspn1 : 0 < sp.toNat := by omega
      have hspn2 : sp.toNat < (t ++ W ++ t).length := by omega
      split at hfv
      · rename_i hcond
        obtain ⟨heq2, hlen2⟩ := hcond
        injection hfv with hfv
        obtain ⟨fh, hfh⟩ : ∃ x, jsTrim ((t ++ W ++ t).take sp.toNat) = x :=
          ⟨_, rfl⟩
        rw [hfh] at heq2 hfv hlen2
        have hh1 : ((t ++ W ++ t).take sp.toNat).head? = some c0 := by
          rw [head?_take hspn1, hhead]
        obtain ⟨β, hβ, hu1⟩ := eq_append_ws_of_trim _ _ hfh hh1 (hth c0 hc0)
        have hl2 : ((t ++ W ++ t).drop sp.toNat).getLast? = some c1 := by
          rw [getLast?_drop hspn2, hlast]
        have hfh2 : jsTrim ((t ++ W ++ t).drop sp.toNat) = fh := heq2.symm
        obtain ⟨γ, hγ, hu2⟩ := eq_ws_append_of_trim _ _ hfh2 hl2 (htl c1 hc1)
        have hEq : t ++ W ++ t = fh ++ (β ++ γ) ++ fh := by
          conv_lhs => rw [← List.take_append_drop sp.toNat (t ++ W ++ t)]
          rw [hu1, hu2]
          simp [List.append_assoc]
        have hfl : ∀ c, fh.getLast? = some c → isWs c = false := by
          rw [← hfh]
          exact jsTrim_getLast _
        have hconc : fh = t :=
          dup_split_unique hW (allWs_append hβ hγ) htl hfl hEq
        rw [← hfv]
        exact hconc
      · exact absurd hfv (by simp)

/-- `deduplicateResponse` collapses `s ++ w ++ s` (whitespace `w`, trimmed
copy at least 60 chars) to the single trimmed copy `jsTrim s`. -/
theorem dedup_doubled_eq (s w : List Char) (hw : allWs w)
    (hT : 60 ≤ (jsTrim s).length) :
    deduplicateResponse (s ++ w ++ s) = jsTrim s := by
  obtain ⟨a, b, ha, hb, hsab⟩ := jsTrim_decompose s
  have htne : jsTrim s ≠ [] := by
    intro h0
    rw [h0] at hT
    simp at hT
  have hW : allWs (b ++ w ++ a) := allWs_append (allWs_append hb hw) ha
  have hmid : jsTrim s ++ (b ++ w ++ a) ++ jsTrim s ≠ [] := by
    intro h0
    rcases List.append_eq_nil.mp h0 with ⟨_, h2⟩
    exact htne h2
  have hshape : s ++ w ++ s =
      a ++ (jsTrim s ++ (b ++ w ++ a) ++ jsTrim s) ++ b := by
    conv_lhs => rw [hsab]
    simp [List.append_assoc]
  have hmidh : ∀ c, (jsTrim s ++ (b ++ w ++ a) ++ jsTrim s).head? = some c →
      isWs c = false := by
    intro c hc
    rw [head?_append_left _ (by simp [htne]), head?_append_left _ htne] at hc
    exact jsTrim_head s c hc
  have hmidl : ∀ c, (jsTrim s ++ (b ++ w ++ a) ++ jsTrim s).getLast? = some c →
      isWs c = false := by
    intro c hc
    rw [getLast?_append_right _ htne] at hc
    exact jsTrim_getLast s c hc
  have htrim : jsTrim (s ++ w ++ s) =
      jsTrim s ++ (b ++ w ++ a) ++ jsTrim s := by
    rw [hshape]
    exact jsTrim_sandwich _ _ _ ha hb hmid hmidh hmidl
  have hlen : ¬ (s ++ w ++ s).length < 100 := by
    have h1 := length_jsTrim_le s
    simp only [List.length_append]
    omega
  rw [deduplicateResponse, if_neg hlen]
  simp only [htrim]
  rw [dedupPhase1_doubled (jsTrim s) (b ++ w ++ a) hW hT
    (jsTrim_head s) (jsTrim_getLast s)]

/-- C5: `deduplicateResponse` applied to `s ++ w ++ s` (two copies of `s`
separated by optional whitespace `w`), where the trimmed `s` has length at
least 60, returns exactly one copy of the TRIMMED `s` — `s.trim()`, not `s`
itself as the claim states.  (Amended form; the original claim fails when
`s` carries leading or trailing whitespace, see `dedup_claim_cex`.) -/
theorem dedup_single_copy (s w : List Char) (hw : allWs w)
    (hT : 60 ≤ (jsTrim s).length) :
    deduplicateResponse (s ++ w ++ s) = jsTrim s :=
  dedup_doubled_eq s w hw hT

set_option maxRecDepth 4000

/-- C5 counterexample to the literal claim: for `s = ' ' :: 60 × 'a'`
(trimmed length exactly 60) and empty separator, `deduplicateResponse`
returns the trimmed copy, which differs from `s`. -/
theorem dedup_claim_cex :
    allWs [] ∧ 60 ≤ (jsTrim (' ' :: List.replicate 60 'a')).length ∧
    deduplicateResponse ((' ' :: List.replicate 60 'a') ++ [] ++
      (' ' :: List.replicate 60 'a')) ≠ ' ' :: List.replicate 60 'a' := by
  refine ⟨fun c hc => absurd hc (List.not_mem_nil c), by decide, ?_⟩
  decide

/-- C5 witness: the amended theorem at `s = 60 × 'b'`, `w = [' ']`. -/
theorem dedup_single_copy_witness :
    allWs [' '] ∧ 60 ≤ (jsTrim (List.replicate 60 'b')).length ∧
    deduplicateResponse (List.replicate 60 'b' ++ [' '] ++
      List.replicate 60 'b') = jsTrim (List.replicate 60 'b') := by
  refine ⟨?_, by decide, ?_⟩
  · unfold allWs
    decide
  · exact dedup_single_copy _ _ (by unfold allWs; decide) (by decide)

theorem joinNl_nil : joinNl [] = [] := rfl

theorem joinNl_single (l : List Char) : joinNl [l] = l := rfl

theorem joinNl_cons_cons (l l2 : List Char) (ls : List (List Char)) :
    joinNl (l :: l2 :: ls) = l ++ '\n' :: joinNl (l2 :: ls) := rfl

theorem splitNl_nl (cs : List Char) :
    splitNl ('\n' :: cs) = [] :: splitNl cs := by
  rw [splitNl]
  rw [if_pos rfl]

theorem splitNl_ne_nil (s : List Char) : splitNl s ≠ [] := by
  cases s with
  | nil => simp [splitNl]
  | cons c cs =>
    rw [splitNl]
    split
    · simp
    · split <;> simp

theorem splitNl_cons_ne {c : Char} {cs l : List Char} {ls : List (List Char)}
    (h : ¬ c = '\n') (hcs : splitNl cs = l :: ls) :
    splitNl (c :: cs) = (c :: l) :: ls := by
  rw [splitNl]
  rw [if_neg h, hcs]

theorem splitNl_append (s t : List Char) :
    splitNl (s ++ '\n' :: t) = splitNl s ++ splitNl t := by
  induction s with
  | nil => rw [List.nil_append, splitNl_nl]; rfl
  | cons c cs ih =>
    by_cases hc : c = '\n'
    · subst hc
      rw [List.cons_append, splitNl_nl, splitNl_nl, ih, List.cons_append]
    · cases hcs : splitNl cs with
      | nil => exact absurd hcs (splitNl_ne_nil cs)
      | cons l ls =>
        rw [hcs] at ih
        cases hcst : splitNl (cs ++ '\n' :: t) with
        | nil => exact absurd hcst (splitNl_ne_nil _)
        | cons l' ls' =>
          rw [hcst] at ih
          have hl : l' = l := by
            injection ih with h1 _
          subst hl
          rw [List.cons_append, splitNl_cons_ne hc hcst,
            splitNl_cons_ne hc hcs]
          injection ih with _ h2
          rw [h2]
          rfl

theorem splitNl_noNl (l : List Char) (h : '\n' ∉ l) : splitNl l = [l] := by
  induction l with
  | nil => rfl
  | cons c cs ih =>
    have hc : ¬ c = '\n' := fun h0 => h (h0 ▸ List.mem_cons_self c cs)
    exact splitNl_cons_ne hc (ih (fun h0 => h (List.mem_cons_of_mem c h0)))

theorem joinNl_splitNl (s : List Char) : joinNl (splitNl s) = s := by
  induction s with
  | nil => rfl
  | cons c cs ih =>
    cases hcs : splitNl cs with
    | nil => exact absurd hcs (splitNl_ne_nil cs)
    | cons l ls =>
      rw [hcs] at ih
      by_cases hc : c = '\n'
      · subst hc
        rw [splitNl_nl, hcs, joinNl_cons_cons, ih, List.nil_append]
      · rw [splitNl_cons_ne hc hcs]
        cases ls with
        | nil =>
          rw [joinNl_single] at ih
          rw [joinNl_single, ih]
        | cons l2 ls2 =>
          rw [joinNl_cons_cons] at ih
          rw [joinNl_cons_cons, List.cons_append, ih]

theorem splitNl_joinNl (ls : List (List Char)) (hne : ls ≠ [])
    (h : ∀ l ∈ ls, '\n' ∉ l) : splitNl (joinNl ls) = ls := by
  induction ls with
  | nil => exact absurd rfl hne
  | cons l ls2 ih =>
    cases ls2 with
    | nil =>
      rw [joinNl_single]
      exact splitNl_noNl l (h l (List.mem_cons_self _ _))
    | cons l2 ls3 =>
      rw [joinNl_cons_cons, splitNl_append,
        splitNl_noNl l (h l (List.mem_cons_self _ _)),
        ih (by simp) (fun x hx => h x (List.mem_cons_of_mem _ hx))]
      rfl

theorem mem_splitNl_chars {s l : List Char} {c : Char}
    (hl : l ∈ splitNl s) (hc : c ∈ l) : c ∈ s := by
  induction s generalizing l with
  | nil =>
    simp [splitNl] at hl
    rw [hl] at hc
    exact absurd hc (List.not_mem_nil c)
  | cons d ds ih =>
    by_cases hd : d = '\n'
    · subst hd
      rw [splitNl_nl] at hl
      rcases List.mem_cons.mp hl with rfl | hl2
      · exact absurd hc (List.not_mem_nil c)
      · exact List.mem_cons_of_mem _ (ih hl2 hc)
    · cases hds : splitNl ds with
      | nil => exact absurd hds (splitNl_ne_nil ds)
      | cons l1 ls =>
        rw [splitNl_cons_ne hd hds] at hl
        rcases List.mem_cons.mp hl with rfl | hl2
        · rcases List.mem_cons.mp hc with rfl | hc2
          · exact List.mem_cons_self _ _
          · exact List.mem_cons_of_mem _
              (ih (hds ▸ List.mem_cons_self _ _) hc2)
        · exact List.mem_cons_of_mem _
            (ih (hds ▸ List.mem_cons_of_mem _ hl2) hc)

theorem noNl_of_mem_splitNl {s l : List Char} (hl : l ∈ splitNl s) :
    '\n' ∉ l := by
  induction s generalizing l with
  | nil =>
    simp [splitNl] at hl
    rw [hl]
    exact List.not_mem_nil _
  | cons d ds ih =>
    by_cases hd : d = '\n'
    · subst hd
      rw [splitNl_nl] at hl
      rcases List.mem_cons.mp hl with rfl | hl2
      · exact List.not_mem_nil _
      · exact ih hl2
    · cases hds : splitNl ds with
      | nil => exact absurd hds (splitNl_ne_nil ds)
      | cons l1 ls =>
        rw [splitNl_cons_ne hd hds] at hl
        rcases List.mem_cons.mp hl with rfl | hl2
        · intro hmem
          rcases List.mem_cons.mp hmem with h1 | h2
          · exact hd h1.symm
          · exact ih (hds ▸ List.mem_cons_self _ _) h2
        · exact ih (hds ▸ List.mem_cons_of_mem _ hl2)

/-- C6 counterexample to the literal claim: on `"x\x1b\x1b[0mAy"` the first
pass only strips the CSI sequence (the lone escape shields it), leaving a bare
`ESC A` pair that the second pass strips as a two-character escape, so the two
passes disagree. -/
theorem extract_idem_cex :
    extractFinalResponse (extractFinalResponse
      ['x', '\x1b', '\x1b', '[', '0', 'm', 'A', 'y']) ≠
    extractFinalResponse ['x', '\x1b', '\x1b', '[', '0', 'm', 'A', 'y'] := by
  decide

theorem ansiMatch_nil : ansiMatch [] = none := rfl

theorem ansiMatch_ne {c : Char} (cs : List Char) (h : c ≠ '\x1b') :
    ansiMatch (c :: cs) = none := by
  simp [ansiMatch, h]

theorem scan_id_of_none (m : List Char → Option Nat) (repl : List Char) :
    ∀ (fuel : Nat) (s : List Char),
      (∀ t, (∃ u, u ++ t = s) → m t = none) →
      scanReplace m repl fuel s = s := by
  intro fuel s
  induction s generalizing fuel with
  | nil =>
    intro h
    cases fuel with
    | zero => rw [scanReplace, h [] ⟨[], rfl⟩]
    | succ f => rw [scanReplace, h [] ⟨[], rfl⟩]
  | cons c cs ih =>
    intro h
    cases fuel with
    | zero => rfl
    | succ f =>
      rw [scanReplace_succ_cons, h (c :: cs) ⟨[], rfl⟩]
      rw [ih f (fun t ⟨u, hu⟩ => h t ⟨c :: u, by rw [List.cons_append, hu]⟩)]

theorem stripAnsi_id_of_no_esc (s : List Char) (h : '\x1b' ∉ s) :
    stripAnsi s = s := by
  rw [stripAnsi]
  apply scan_id_of_none
  intro t ⟨u, hu⟩
  cases t with
  | nil => exact ansiMatch_nil
  | cons c cs =>
    apply ansiMatch_ne
    intro hc
    apply h
    rw [← hu, hc]
    exact List.mem_append_right u (List.mem_cons_self _ _)

theorem scan_chars (m : List Char → Option Nat) (repl : List Char) :
    ∀ (fuel : Nat) (s : List Char) (c : Char),
      c ∈ scanReplace m repl fuel s → c ∈ repl ∨ c ∈ s := by
  intro fuel
  induction fuel with
  | zero =>
    intro s c hc
    cases s with
    | nil =>
      rw [scanReplace] at hc
      split at hc
      · exact Or.inl hc
      · exact Or.inr hc
    | cons d ds => exact Or.inr hc
  | succ f ih =>
    intro s c hc
    cases s with
    | nil =>
      rw [scanReplace] at hc
      split at hc
      · exact Or.inl hc
      · exact Or.inr hc
    | cons d ds =>
      rw [scanReplace_succ_cons] at hc
      split at hc
      · rcases List.mem_append.mp hc with h1 | h2
        · exact Or.inl h1
        · rcases List.mem_cons.mp h2 with rfl | h3
          · exact Or.inr (List.mem_cons_self _ _)
          · rcases ih ds c h3 with h4 | h5
            · exact Or.inl h4
            · exact Or.inr (List.mem_cons_of_mem _ h5)
      · rcases List.mem_append.mp hc with h1 | h2
        · exact Or.inl h1
        · rcases ih _ c h2 with h4 | h5
          · exact Or.inl h4
          · exact Or.inr (List.mem_cons_of_mem _ (List.drop_subset _ _ h5))
      · rcases List.mem_cons.mp hc with rfl | h2
        · exact Or.inr (List.mem_cons_self _ _)
        · rcases ih ds c h2 with h4 | h5
          · exact Or.inl h4
          · exact Or.inr (List.mem_cons_of_mem _ h5)

theorem mem_jsTrim {s : List Char} {c : Char} (h : c ∈ jsTrim s) : c ∈ s := by
  rw [jsTrim, jsTrimEnd, jsTrimStart] at h
  rw [List.mem_reverse] at h
  have h2 := (List.dropWhile_sublist (l := (s.dropWhile isWs).reverse)
    (p := isWs)).subset h
  rw [List.mem_reverse] at h2
  exact (List.dropWhile_sublist (l := s) (p := isWs)).subset h2

theorem mem_joinNl {ls : List (List Char)} {c : Char} (h : c ∈ joinNl ls) :
    (∃ l ∈ ls, c ∈ l) ∨ c = '\n' := by
  induction ls with
  | nil => exact absurd h (List.not_mem_nil c)
  | cons l ls2 ih =>
    cases ls2 with
    | nil =>
      rw [joinNl_single] at h
      exact Or.inl ⟨l, List.mem_cons_self _ _, h⟩
    | cons l2 ls3 =>
      rw [joinNl_cons_cons] at h
      rcases List.mem_append.mp h with h1 | h2
      · exact Or.inl ⟨l, List.mem_cons_self _ _, h1⟩
      · rcases List.mem_cons.mp h2 with rfl | h3
        · exact Or.inr rfl
        · rcases ih h3 with ⟨l', hl', hc'⟩ | hnl
          · exact Or.inl ⟨l', List.mem_cons_of_mem _ hl', hc'⟩
          · exact Or.inr hnl

theorem esc_not_in_extract (x : List Char) (hx : '\x1b' ∉ x) :
    '\x1b' ∉ extractFinalResponse x := by
  intro h
  rw [extractFinalResponse] at h
  have h1 := mem_jsTrim h
  rcases scan_chars nlRunMatch ('\n' :: '\n' :: []) _ _ _ h1 with h2 | h3
  · simp at h2
  · rcases mem_joinNl h3 with ⟨l, hl, hc⟩ | hnl
    · have hl2 := List.mem_of_mem_filter hl
      have := mem_splitNl_chars hl2 hc
      rw [stripAnsi_id_of_no_esc x hx] at this
      exact hx this
    · simp at hnl

theorem keep_eq_of_jsTrim_eq {l l' : List Char} (h : jsTrim l = jsTrim l') :
    keepLine l = keepLine l' := by
  rw [keepLine, keepLine, h]

theorem jsTrim_ws_append (q a : List Char) (hq : allWs q) :
    jsTrim (q ++ a) = jsTrim a := by
  rw [jsTrim, jsTrimStart_ws_append _ _ hq]
  rfl

theorem allWs_of_dropWhile_nil {a : List Char}
    (h : a.dropWhile isWs = []) : allWs a := by
  intro c hc
  by_contra hws
  have := List.dropWhile_eq_nil_iff.mp h c hc
  exact hws this

theorem jsTrim_append_ws (a q : List Char) (hq : allWs q) :
    jsTrim (a ++ q) = jsTrim a := by
  cases hd : a.dropWhile isWs with
  | nil =>
    have ha := allWs_of_dropWhile_nil hd
    rw [jsTrim_ws_append a q ha, jsTrim_ws q hq, jsTrim_ws a ha]
  | cons c cs =>
    have hne : a.dropWhile isWs ≠ [] := by rw [hd]; simp
    have h1 : (a ++ q).dropWhile isWs = a.dropWhile isWs ++ q := by
      rw [List.dropWhile_append]
      simp [hne]
    rw [jsTrim, jsTrimStart, h1, jsTrim, jsTrimStart]
    exact jsTrimEnd_ws_append _ _ hq

theorem lines_cons_ws {d : Char} (u : List Char) (hd : isWs d = true)
    (hdn : ¬ d = '\n') :
    ∀ l ∈ splitNl u, ∃ l₀ ∈ splitNl (d :: u), jsTrim l = jsTrim l₀ := by
  intro l hl
  cases hu : splitNl u with
  | nil => exact absurd hu (splitNl_ne_nil u)
  | cons l1 ls =>
    rw [hu] at hl
    rcases List.mem_cons.mp hl with rfl | hl2
    · refine ⟨d :: l, ?_, ?_⟩
      · rw [splitNl_cons_ne hdn hu]
        exact List.mem_cons_self _ _
      · have : d :: l = [d] ++ l := rfl
        rw [this, jsTrim_ws_append [d] l (by intro c hc; simp at hc; rw [hc]; exact hd)]
    · refine ⟨l, ?_, rfl⟩
      rw [splitNl_cons_ne hdn hu]
      exact List.mem_cons_of_mem _ hl2

theorem lines_ws_append_left (p v : List Char) (hp : allWs p) :
    ∀ l ∈ splitNl v, ∃ l₀ ∈ splitNl (p ++ v), jsTrim l = jsTrim l₀ := by
  induction p with
  | nil => exact fun l hl => ⟨l, hl, rfl⟩
  | cons d p2 ih =>
    intro l hl
    obtain ⟨l1, hl1, he1⟩ :=
      ih (fun c hc => hp c (List.mem_cons_of_mem _ hc)) l hl
    by_cases hdn : d = '\n'
    · subst hdn
      refine ⟨l1, ?_, he1⟩
      rw [List.cons_append, splitNl_nl]
      exact List.mem_cons_of_mem _ hl1
    · obtain ⟨l0, hl0, he0⟩ := lines_cons_ws (p2 ++ v)
        (hp d (List.mem_cons_self _ _)) hdn l1 hl1
      exact ⟨l0, hl0, he1.trans he0⟩

theorem splitNl_snoc_ne (c : Char) (hc : ¬ c = '\n') :
    ∀ z : List Char, ∃ L lst, splitNl z = L ++ [lst] ∧
      splitNl (z ++ [c]) = L ++ [lst ++ [c]] := by
  intro z
  induction z with
  | nil => exact ⟨[], [], rfl, by simp [splitNl, hc]⟩
  | cons d z2 ih =>
    obtain ⟨L, lst, h1, h2⟩ := ih
    by_cases hd : d = '\n'
    · subst hd
      refine ⟨[] :: L, lst, ?_, ?_⟩
      · rw [splitNl_nl, h1]; rfl
      · rw [List.cons_append, splitNl_nl, h2]; rfl
    · cases L with
      | nil =>
        refine ⟨[], d :: lst, ?_, ?_⟩
        · rw [splitNl_cons_ne hd (by rw [h1]; rfl)]
          rfl
        · rw [List.cons_append, splitNl_cons_ne hd (by rw [h2]; rfl)]
          rfl
      | cons l1 L2 =>
        refine ⟨(d :: l1) :: L2, lst, ?_, ?_⟩
        · rw [splitNl_cons_ne hd (by rw [h1]; rfl)]
          rfl
        · rw [List.cons_append, splitNl_cons_ne hd (by rw [h2]; rfl)]
          rfl

theorem splitNl_reverse (s : List Char) :
    splitNl s.reverse = ((splitNl s).map List.reverse).reverse := by
  induction s with
  | nil => rfl
  | cons c cs ih =>
    by_cases hc : c = '\n'
    · subst hc
      have h1 : ('\n' :: cs).reverse = cs.reverse ++ ['\n'] := by simp
      have h2 : splitNl (cs.reverse ++ ['\n']) =
          splitNl cs.reverse ++ [[]] := by
        have := splitNl_append cs.reverse []
        simpa [splitNl] using this
      rw [h1, h2, ih, splitNl_nl]
      simp
    · cases hcs : splitNl cs with
      | nil => exact absurd hcs (splitNl_ne_nil cs)
      | cons l ls =>
        obtain ⟨L, lst, hz1, hz2⟩ := splitNl_snoc_ne c hc cs.reverse
        have h1 : (c :: cs).reverse = cs.reverse ++ [c] := by simp
        rw [h1, hz2]
        rw [ih, hcs] at hz1
        have h3 : ((l :: ls).map List.reverse).reverse =
            (ls.map List.reverse).reverse ++ [l.reverse] := by simp
        rw [h3] at hz1
        obtain ⟨hL, hlst⟩ := List.append_inj' hz1 (by simp)
        have hlst2 : l.reverse = lst := by
          injection hlst with h e
        subst hL
        subst hlst2
        rw [splitNl_cons_ne hc hcs]
        simp

theorem jsTrim_comm (s : List Char) :
    jsTrimStart (jsTrimEnd s) = jsTrim s := by
  obtain ⟨a, b, ha, hb, hab⟩ := jsTrim_decompose s
  cases hm : jsTrim s with
  | nil =>
    rw [hm] at hab
    simp only [List.append_nil] at hab
    have hsw : allWs s := by
      rw [hab]
      intro c hc
      rcases List.mem_append.mp hc with h1 | h2
      · exact ha c h1
      · exact hb c h2
    have h1 : jsTrimEnd s = [] := by
      rw [jsTrimEnd, List.dropWhile_eq_nil_iff.mpr
        (fun c hc => hsw c (List.mem_reverse.mp hc))]
      rfl
    rw [h1]
    rfl
  | cons m0 ms =>
    have hmne : jsTrim s ≠ [] := by rw [hm]; simp
    have h1 : jsTrimEnd s = a ++ jsTrim s := by
      conv_lhs => rw [hab]
      rw [jsTrimEnd_ws_append _ _ hb]
      refine jsTrimEnd_eq_self _ (fun c hc => ?_)
      rw [getLast?_append_right a hmne] at hc
      exact jsTrim_getLast s c hc
    rw [h1, jsTrimStart_ws_append _ _ ha,
      jsTrimStart_eq_self _ (jsTrim_head s)]
    exact hm

theorem jsTrim_reverse (s : List Char) :
    jsTrim s.reverse = (jsTrim s).reverse := by
  have h1 : jsTrimStart s.reverse = (jsTrimEnd s).reverse := by
    rw [jsTrimEnd, List.reverse_reverse]
    rfl
  have h2 : jsTrimEnd ((jsTrimEnd s).reverse) =
      (jsTrimStart (jsTrimEnd s)).reverse := by
    rw [jsTrimEnd, List.reverse_reverse]
    rfl
  rw [jsTrim, h1, h2, jsTrim_comm]

theorem lines_ws_append_right (v r : List Char) (hr : allWs r) :
    ∀ l ∈ splitNl v, ∃ l₀ ∈ splitNl (v ++ r), jsTrim l = jsTrim l₀ := by
  intro l hl
  have hlrev : l.reverse ∈ splitNl v.reverse := by
    rw [splitNl_reverse]
    rw [List.mem_reverse]
    exact List.mem_map_of_mem _ hl
  have hrrev : allWs r.reverse := fun c hc => hr c (List.mem_reverse.mp hc)
  obtain ⟨l1, hl1, he1⟩ :=
    lines_ws_append_left r.reverse v.reverse hrrev l.reverse hlrev
  have hmem : l1 ∈ splitNl (v ++ r).reverse := by
    rw [List.reverse_append]
    exact hl1
  rw [splitNl_reverse, List.mem_reverse] at hmem
  obtain ⟨l0, hl0, hrev⟩ := List.mem_map.mp hmem
  refine ⟨l0, hl0, ?_⟩
  rw [← hrev] at he1
  rw [jsTrim_reverse, jsTrim_reverse] at he1
  exact List.reverse_injective he1

theorem nlRunMatch_some {cs : List Char} {n : Nat}
    (h : nlRunMatch cs = some n) :
    ∃ r, cs = '\n' :: '\n' :: '\n' :: r ∧
      n = 3 + (r.takeWhile (· = '\n')).length := by
  rcases cs with _ | ⟨c1, _ | ⟨c2, _ | ⟨c3, r⟩⟩⟩
  · simp [nlRunMatch] at h
  · simp [nlRunMatch] at h
  · simp [nlRunMatch] at h
  · by_cases h1 : c1 = '\n'
    · by_cases h2 : c2 = '\n'
      · by_cases h3 : c3 = '\n'
        · subst h1; subst h2; subst h3
          refine ⟨r, rfl, ?_⟩
          have he : nlRunMatch ('\n' :: '\n' :: '\n' :: r) =
              some (3 + (r.takeWhile (· = '\n')).length) := rfl
          rw [he] at h
          injection h with h
          exact h.symm
        · simp [nlRunMatch, h3] at h
      · simp [nlRunMatch, h2] at h
    · simp [nlRunMatch, h1] at h

theorem dropWhile_eq_drop_len (p : Char → Bool) (l : List Char) :
    l.dropWhile p = l.drop (l.takeWhile p).length := by
  induction l with
  | nil => rfl
  | cons c cs ih =>
    by_cases hc : p c
    · rw [List.takeWhile_cons_of_pos hc, List.dropWhile_cons_of_pos hc,
        List.length_cons, List.drop_succ_cons, ih]
    · rw [List.takeWhile_cons_of_neg hc, List.dropWhile_cons_of_neg hc]
      rfl

theorem splitNl_replicate_nl (k : Nat) (z : List Char) :
    splitNl (List.replicate k '\n' ++ z) =
      List.replicate k [] ++ splitNl z := by
  induction k with
  | zero => rfl
  | succ j ih =>
    rw [List.replicate_succ, List.cons_append, splitNl_nl, ih,
      List.replicate_succ, List.cons_append]

theorem nlRun_decomp (r : List Char) :
    r = List.replicate (r.takeWhile (· = '\n')).length '\n' ++
      r.drop (r.takeWhile (· = '\n')).length := by
  have h1 : r.takeWhile (· = '\n') =
      List.replicate (r.takeWhile (· = '\n')).length '\n' := by
    apply List.eq_replicate_of_mem
    intro b hb
    have := mem_of_mem_takeWhile _ r hb
    simpa using this
  conv_lhs => rw [← List.takeWhile_append_dropWhile (p := (· = '\n')) (l := r)]
  rw [dropWhile_eq_drop_len]
  conv_rhs => rw [← h1]

theorem collapse_lines : ∀ (fuel : Nat) (cs : List Char),
    ∃ H T T₀,
      splitNl (scanReplace nlRunMatch ('\n' :: '\n' :: []) fuel cs) =
        H :: T ∧
      splitNl cs = H :: T₀ ∧ ∀ l ∈ T, l = [] ∨ l ∈ T₀ := by
  intro fuel
  induction fuel with
  | zero =>
    intro cs
    cases cs with
    | nil => exact ⟨[], [], [], rfl, rfl, by simp⟩
    | cons c cs2 =>
      cases hs : splitNl (c :: cs2) with
      | nil => exact absurd hs (splitNl_ne_nil _)
      | cons H T => exact ⟨H, T, T, hs, rfl, fun l hl => Or.inr hl⟩
  | succ f ih =>
    intro cs
    cases cs with
    | nil => exact ⟨[], [], [], rfl, rfl, by simp⟩
    | cons c cs2 =>
      cases hm : nlRunMatch (c :: cs2) with
      | none =>
        have hout : scanReplace nlRunMatch ('\n' :: '\n' :: []) (f + 1)
            (c :: cs2) =
            c :: scanReplace nlRunMatch ('\n' :: '\n' :: []) f cs2 := by
          rw [scanReplace_succ_cons]
          simp only [hm]
        obtain ⟨H', T', T₀', ha, hb, hp⟩ := ih cs2
        by_cases hc : c = '\n'
        · subst hc
          refine ⟨[], H' :: T', H' :: T₀', ?_, ?_, ?_⟩
          · rw [hout, splitNl_nl, ha]
          · rw [splitNl_nl, hb]
          · intro l hl
            rcases List.mem_cons.mp hl with rfl | hl2
            · exact Or.inr (List.mem_cons_self _ _)
            · rcases hp l hl2 with h | h
              · exact Or.inl h
              · exact Or.inr (List.mem_cons_of_mem _ h)
        · refine ⟨c :: H', T', T₀', ?_, ?_, hp⟩
          · rw [hout]
            exact splitNl_cons_ne hc ha
          · exact splitNl_cons_ne hc hb
      | some n =>
        obtain ⟨r, hshape, hn⟩ := nlRunMatch_some hm
        have hc : c = '\n' := by injection hshape
        have hcs2 : cs2 = '\n' :: '\n' :: r := by
          injection hshape with _ h
        have hm2 : nlRunMatch (c :: cs2) =
            some (Nat.succ (2 + (r.takeWhile (· = '\n')).length)) := by
          rw [hm, hn]
          congr 1
          omega
        have hdrop : cs2.drop (2 + (r.takeWhile (· = '\n')).length) =
            r.drop (r.takeWhile (· = '\n')).length := by
          rw [hcs2, show 2 + (r.takeWhile (· = '\n')).length =
            ((r.takeWhile (· = '\n')).length + 1) + 1 from by omega,
            List.drop_succ_cons, List.drop_succ_cons]
        have hout : scanReplace nlRunMatch ('\n' :: '\n' :: []) (f + 1)
            (c :: cs2) =
            '\n' :: '\n' :: scanReplace nlRunMatch ('\n' :: '\n' :: []) f
              (r.drop (r.takeWhile (· = '\n')).length) := by
          rw [scanReplace_succ_cons]
          simp only [hm2]
          rw [hdrop]
          rfl
        obtain ⟨H', T', T₀', ha, hb, hp⟩ :=
          ih (r.drop (r.takeWhile (· = '\n')).length)
        have hsr : splitNl r =
            List.replicate (r.takeWhile (· = '\n')).length [] ++
              (H' :: T₀') := by
          conv_lhs => rw [nlRun_decomp r]
          rw [splitNl_replicate_nl, hb]
        refine ⟨[], [] :: H' :: T', [] :: [] :: splitNl r, ?_, ?_, ?_⟩
        · rw [hout, splitNl_nl, splitNl_nl, ha]
        · rw [hc, hcs2, splitNl_nl, splitNl_nl, splitNl_nl]
        · intro l hl
          rcases List.mem_cons.mp hl with rfl | hl2
          · exact Or.inl rfl
          · rcases List.mem_cons.mp hl2 with rfl | hl3
            · refine Or.inr (List.mem_cons_of_mem _ (List.mem_cons_of_mem _ ?_))
              rw [hsr]
              exact List.mem_append_right _ (List.mem_cons_self _ _)
            · rcases hp l hl3 with h | h
              · exact Or.inl h
              · refine Or.inr
                  (List.mem_cons_of_mem _ (List.mem_cons_of_mem _ ?_))
                rw [hsr]
                exact List.mem_append_right _ (List.mem_cons_of_mem _ h)

theorem mem_splitNl_collapse {z l : List Char}
    (hl : l ∈ splitNl (collapseNl z)) : l = [] ∨ l ∈ splitNl z := by
  obtain ⟨H, T, T₀, ha, hb, hp⟩ := collapse_lines z.length z
  rw [collapseNl] at hl
  rw [ha] at hl
  rcases List.mem_cons.mp hl with rfl | hl2
  · exact Or.inr (hb ▸ List.mem_cons_self _ _)
  · rcases hp l hl2 with h | h
    · exact Or.inl h
    · exact Or.inr (hb ▸ List.mem_cons_of_mem _ h)


theorem noTriple_nil : noTriple [] := by
  intro u v h
  exact absurd h.symm (by simp)

theorem noTriple_cons (c : Char) (w : List Char) :
    noTriple (c :: w) ↔
      (∀ v, c :: w ≠ '\n' :: '\n' :: '\n' :: v) ∧ noTriple w := by
  constructor
  · intro h
    refine ⟨fun v => h [] v, fun u v hw => h (c :: u) v ?_⟩
    rw [List.cons_append, ← hw]
  · rintro ⟨h1, h2⟩ u v heq
    cases u with
    | nil => exact h1 v heq
    | cons d u2 =>
      rw [List.cons_append] at heq
      injection heq with _ htl
      exact h2 u2 v htl

theorem noTriple_of_append_left {a b : List Char}
    (h : noTriple (a ++ b)) : noTriple b := by
  intro u v hb
  exact h (a ++ u) v (by rw [hb, List.append_assoc])

theorem noTriple_of_append_right {a b : List Char}
    (h : noTriple (a ++ b)) : noTriple a := by
  intro u v ha
  refine h u ('\n' :: '\n' :: '\n' :: v ++ b).tail.tail.tail ?_
  rw [ha]
  simp [List.append_assoc]

theorem noTriple_jsTrim {s : List Char} (h : noTriple s) :
    noTriple (jsTrim s) := by
  have h1 : noTriple (jsTrimStart s) := by
    apply noTriple_of_append_left (a := s.takeWhile isWs)
    rw [jsTrimStart_split s]
    exact h
  apply noTriple_of_append_right
    (b := ((jsTrimStart s).reverse.takeWhile isWs).reverse)
  show noTriple (jsTrimEnd (jsTrimStart s) ++
    ((jsTrimStart s).reverse.takeWhile isWs).reverse)
  rw [jsTrimEnd_split (jsTrimStart s)]
  exact h1

theorem collapse_scan_props : ∀ (fuel : Nat) (cs : List Char),
    cs.length ≤ fuel →
    noTriple (scanReplace nlRunMatch ('\n' :: '\n' :: []) fuel cs) ∧
    (∀ w, scanReplace nlRunMatch ('\n' :: '\n' :: []) fuel cs = '\n' :: w →
      ∃ v, cs = '\n' :: v) ∧
    (∀ w, scanReplace nlRunMatch ('\n' :: '\n' :: []) fuel cs =
        '\n' :: '\n' :: w → ∃ v, cs = '\n' :: '\n' :: v) := by
  intro fuel
  induction fuel with
  | zero =>
    intro cs hlen
    have hnil : cs = [] := by
      cases cs with
      | nil => rfl
      | cons c cs2 => simp at hlen
    subst hnil
    refine ⟨noTriple_nil, ?_, ?_⟩
    · intro w hw
      exact absurd hw (by rw [scanReplace_nil]; simp [nlRunMatch])
    · intro w hw
      exact absurd hw (by rw [scanReplace_nil]; simp [nlRunMatch])
  | succ f ih =>
    intro cs hlen
    cases cs with
    | nil =>
      refine ⟨noTriple_nil, ?_, ?_⟩
      · intro w hw
        exact absurd hw (by rw [scanReplace_nil]; simp [nlRunMatch])
      · intro w hw
        exact absurd hw (by rw [scanReplace_nil]; simp [nlRunMatch])
    | cons c cs2 =>
      have hlen2 : cs2.length ≤ f := by
        rw [List.length_cons] at hlen
        omega
      cases hm : nlRunMatch (c :: cs2) with
      | none =>
        have hout : scanReplace nlRunMatch ('\n' :: '\n' :: []) (f + 1)
            (c :: cs2) =
            c :: scanReplace nlRunMatch ('\n' :: '\n' :: []) f cs2 := by
          rw [scanReplace_succ_cons]
          simp only [hm]
        obtain ⟨ihT, ih1, ih2⟩ := ih cs2 hlen2
        refine ⟨?_, ?_, ?_⟩
        · rw [hout, noTriple_cons]
          refine ⟨?_, ihT⟩
          intro v hv
          injection hv with hc htl
          obtain ⟨v2, hv2⟩ := ih2 v htl
          subst hc
          rw [hv2] at hm
          exact absurd hm (by simp [nlRunMatch])
        · intro w hw
          rw [hout] at hw
          injection hw with hc _
          exact ⟨cs2, by rw [hc]⟩
        · intro w hw
          rw [hout] at hw
          injection hw with hc htl
          obtain ⟨v, hv⟩ := ih1 w htl
          exact ⟨v, by rw [hc, hv]⟩
      | some n =>
        obtain ⟨r, hshape, hn⟩ := nlRunMatch_some hm
        have hc : c = '\n' := by injection hshape
        have hcs2 : cs2 = '\n' :: '\n' :: r := by
          injection hshape with _ h
        have hm2 : nlRunMatch (c :: cs2) =
            some (Nat.succ (2 + (r.takeWhile (· = '\n')).length)) := by
          rw [hm, hn]
          congr 1
          omega
        have hdrop : cs2.drop (2 + (r.takeWhile (· = '\n')).length) =
            r.drop (r.takeWhile (· = '\n')).length := by
          rw [hcs2, show 2 + (r.takeWhile (· = '\n')).length =
            ((r.takeWhile (· = '\n')).length + 1) + 1 from by omega,
            List.drop_succ_cons, List.drop_succ_cons]
        have hout : scanReplace nlRunMatch ('\n' :: '\n' :: []) (f + 1)
            (c :: cs2) =
            '\n' :: '\n' :: scanReplace nlRunMatch ('\n' :: '\n' :: []) f
              (r.drop (r.takeWhile (· = '\n')).length) := by
          rw [scanReplace_succ_cons]
          simp only [hm2]
          rw [hdrop]
          rfl
        have hlen3 : (r.drop (r.takeWhile (· = '\n')).length).length ≤ f := by
          rw [List.length_drop]
          rw [hcs2, List.length_cons, List.length_cons, List.length_cons]
            at hlen
          omega
        obtain ⟨ihT, ih1, _⟩ := ih (r.drop (r.takeWhile (· = '\n')).length)
          hlen3
        have hwhead : ∀ w2,
            scanReplace nlRunMatch ('\n' :: '\n' :: []) f
              (r.drop (r.takeWhile (· = '\n')).length) ≠ '\n' :: w2 := by
          intro w2 hw2
          obtain ⟨v, hv⟩ := ih1 w2 hw2
          have : (r.drop (r.takeWhile (· = '\n')).length).head? =
              some '\n' := by rw [hv]; rfl
          rw [← dropWhile_eq_drop_len] at this
          have := head_dropWhile_false (fun x => decide (x = '\n')) r '\n' this
          simp at this
        refine ⟨?_, ?_, ?_⟩
        · rw [hout, noTriple_cons]
          constructor
          · intro v hv
            injection hv with _ htl
            injection htl with _ htl2
            exact hwhead v htl2
          · rw [noTriple_cons]
            constructor
            · intro v hv
              injection hv with _ htl
              exact hwhead ('\n' :: v) htl
            · exact ihT
        · intro w _
          exact ⟨cs2, by rw [hc]⟩
        · intro w _
          exact ⟨'\n' :: r, by rw [hc, hcs2]⟩

theorem collapseNl_noTriple (z : List Char) : noTriple (collapseNl z) :=
  (collapse_scan_props z.length z le_rfl).1

theorem collapseNl_id_of_noTriple (s : List Char) (h : noTriple s) :
    collapseNl s = s := by
  rw [collapseNl]
  apply scan_id_of_none
  intro t ht
  obtain ⟨u, hu⟩ := ht
  cases hmt : nlRunMatch t with
  | none => rfl
  | some n =>
    obtain ⟨r, hr, _⟩ := nlRunMatch_some hmt
    exact absurd (by rw [← hu, hr]) (h u r)

theorem keepLine_nil : keepLine [] = true := by decide

theorem extract_def (x : List Char) :
    extractFinalResponse x =
      jsTrim (collapseNl (joinNl
        ((splitNl (stripAnsi x)).filter keepLine))) := rfl

theorem extract_fixed_point (y : List Char) (h1 : '\x1b' ∉ y)
    (h2 : ∀ l ∈ splitNl y, keepLine l = true) (h3 : noTriple y)
    (h4 : jsTrim y = y) : extractFinalResponse y = y := by
  rw [extract_def, stripAnsi_id_of_no_esc y h1, List.filter_eq_self.mpr h2,
    joinNl_splitNl, collapseNl_id_of_noTriple y h3, h4]

theorem extract_lines_keep (x : List Char) :
    ∀ l ∈ splitNl (extractFinalResponse x), keepLine l = true := by
  intro l hl
  have hKu : ∀ l2 ∈ splitNl (joinNl
      ((splitNl (stripAnsi x)).filter keepLine)), keepLine l2 = true := by
    intro l2 hl2
    cases hL : (splitNl (stripAnsi x)).filter keepLine with
    | nil =>
      rw [hL] at hl2
      have : l2 ∈ ([[]] : List (List Char)) := by
        simpa [joinNl, splitNl] using hl2
      simp at this
      rw [this]
      exact keepLine_nil
    | cons a as =>
      rw [hL] at hl2
      rw [splitNl_joinNl (a :: as) (by simp) ?hnl] at hl2
      case hnl =>
        intro l3 hl3
        exact noNl_of_mem_splitNl
          (List.mem_of_mem_filter (by rw [hL]; exact hl3))
      exact (List.mem_filter.mp (by rw [hL]; exact hl2)).2
  have hKv : ∀ l2 ∈ splitNl (collapseNl (joinNl
      ((splitNl (stripAnsi x)).filter keepLine))), keepLine l2 = true := by
    intro l2 hl2
    rcases mem_splitNl_collapse hl2 with rfl | h
    · exact keepLine_nil
    · exact hKu l2 h
  obtain ⟨a, b, ha, hb, hab⟩ := jsTrim_decompose
    (collapseNl (joinNl ((splitNl (stripAnsi x)).filter keepLine)))
  rw [extract_def] at hl
  obtain ⟨l0, hl0, he0⟩ := lines_ws_append_right _ b hb l hl
  obtain ⟨l1, hl1, he1⟩ := lines_ws_append_left a _ ha l0 hl0
  rw [keep_eq_of_jsTrim_eq (he0.trans he1)]
  apply hKv
  rw [← List.append_assoc, ← hab] at hl1
  exact hl1

theorem extract_noTriple (x : List Char) :
    noTriple (extractFinalResponse x) := by
  rw [extract_def]
  exact noTriple_jsTrim (collapseNl_noTriple _)

theorem extract_jsTrim (x : List Char) :
    jsTrim (extractFinalResponse x) = extractFinalResponse x := by
  rw [extract_def]
  exact jsTrim_idem _

/-- C6 (amended): `extractFinalResponse` is idempotent on every input that
contains no ESC (U+001B) character.  On such inputs ANSI stripping is the
identity, every surviving line still passes the line filter, the collapsed
text has no triple-newline run, and the result is already trimmed, so a second
pass changes nothing.  (The original unconditional claim fails, see
`extract_idem_cex`.) -/
theorem extract_idem_of_no_esc (x : List Char) (hx : '\x1b' ∉ x) :
    extractFinalResponse (extractFinalResponse x) =
      extractFinalResponse x :=
  extract_fixed_point _ (esc_not_in_extract x hx) (extract_lines_keep x)
    (extract_noTriple x) (extract_jsTrim x)

/-- C6 witness: the amended theorem at the escape-free input `"hi"`. -/
theorem extract_idem_of_no_esc_witness :
    '\x1b' ∉ ('h' :: 'i' :: []) ∧
    extractFinalResponse (extractFinalResponse ('h' :: 'i' :: [])) =
      extractFinalResponse ('h' :: 'i' :: []) :=
  ⟨by decide, extract_idem_of_no_esc _ (by decide)⟩
